import Mathlib

/-!
Verification of the Rush-Hour puzzle solver (`solve.py`).

The development shallowly embeds the solver: vehicles, boards, search
nodes, the two heuristics, the successor generator and the three search
drivers (`a_star`, `dfs`, `a_star_node_expanded`).  The companion module
`board.py` (classes `Board`, `Car`, `State`, and `zero_heuristic`) is not
part of the sources; its definitions are modelled from the specification
and are marked as such in their doc comments.

Modelling conventions:
  - Python integers that are always non-negative in the program are `Nat`;
    returned costs, which can be `-1`, are `Int`.
  - Python list indexing raises out of bounds; grid reads are embedded
    with a default character `' '` that is distinct from every glyph, so
    an out-of-bounds read never looks like a free or a vehicle cell.
  - `list.index(x)` raises when `x` is absent; functions whose Python
    originals can raise are embedded with an `Option` result, `none`
    standing for the raised exception.
  - the unbounded `while` loops of the search drivers are embedded with
    an explicit fuel argument; `none` stands for running out of fuel, and
    the drivers are instantiated with a fuel proved sufficient below.
-/

/-- Modelled from the spec: a vehicle (`Car` in `board.py`, missing from the
sources) has an orientation (the string "h" or "v"), a fixed-axis
coordinate, a moving-axis coordinate of its low end, and a length.
`solve.py` reads exactly these four attributes. -/
structure Car where
  orientation : String
  fix_coord : Nat
  var_coord : Nat
  length : Nat
deriving DecidableEq, Repr, Inhabited

/-- Grid of single-character cell markers, row major, as in `board.py`. -/
abbrev Grid := List (List Char)

/-- Write a single cell of a grid; out-of-range writes are dropped (they
cannot occur for in-bounds vehicles). -/
def setCell (g : Grid) (r c : Nat) (ch : Char) : Grid :=
  g.set r ((g.getD r []).set c ch)

/-- Modelled from the spec: `board.py`'s grid construction places, for a
horizontal vehicle, a head glyph, middle glyphs and a tail glyph along its
row, and symmetrically for a vertical vehicle along its column.  The glyph
alphabet is the one `solve.py` reads back: a free cell is a dot, a
horizontal vehicle shows its head, middles and tail, and a vertical
vehicle likewise down its column. -/
def placeCar (g : Grid) (c : Car) : Grid :=
  if c.orientation == "h" then
    let g1 := setCell g c.fix_coord c.var_coord '<'
    let g2 := (List.range (c.length - 2)).foldl
      (fun a j => setCell a c.fix_coord (c.var_coord + j + 1) '-') g1
    setCell g2 c.fix_coord (c.var_coord + c.length - 1) '>'
  else
    let g1 := setCell g c.var_coord c.fix_coord '^'
    let g2 := (List.range (c.length - 2)).foldl
      (fun a j => setCell a (c.var_coord + j + 1) c.fix_coord '|') g1
    setCell g2 (c.var_coord + c.length - 1) c.fix_coord 'v'

/-- Modelled from the spec: the grid is always rebuilt from the vehicle
list on Board construction, starting from an all-free square grid. -/
def constructGrid (size : Nat) (cars : List Car) : Grid :=
  cars.foldl placeCar (List.replicate size (List.replicate size '.'))

/-- Modelled from the spec: a Board carries an opaque name, its size, its
vehicle list and the derived grid. -/
structure Board where
  name : String
  size : Nat
  cars : List Car
  grid : Grid
deriving DecidableEq, Repr, Inhabited

/-- Modelled from the spec: the Board constructor rebuilds `grid` from
`cars`. -/
def mkBoard (name : String) (size : Nat) (cars : List Car) : Board :=
  ⟨name, size, cars, constructGrid size cars⟩

/-- Read `board.grid[r][c]`; out of bounds yields `' '`, which is not a
glyph, modelling that the Python read never silently yields a cell. -/
def cellB (b : Board) (r c : Nat) : Char :=
  (b.grid.getD r []).getD c ' '

/-- Exit row of the board, `board.grid[2]`. -/
def exitRow (b : Board) : List Char :=
  b.grid.getD 2 []

/-- Goal test on a board: `board.grid[2][4] == "<" and board.grid[2][5] == ">"`
(lines 169 and 209 of `solve.py`). -/
def isGoalBoard (b : Board) : Bool :=
  cellB b 2 4 == '<' && cellB b 2 5 == '>'

/-- Embedding of `blocking_heuristic` (`solve.py` lines 193-218).
`exitRow.index(">")` raises when the exit row holds no tail glyph; the
raise is embedded as `none`. -/
def blocking_heuristic (b : Board) : Option Nat :=
  if isGoalBoard b then some 0
  else
    match (exitRow b).findIdx? (fun ch => ch == '>') with
    | none => none
    | some p =>
      some (1 + (List.range' (p + 1) (b.size - (p + 1))).countP
        (fun i => !(cellB b 2 i == '.')))

/-- First index of a non-free cell in the exit row strictly right of `p`
(the loop of `advanced_heuristic`, which breaks at its first hit). -/
def firstBlocker (b : Board) (p : Nat) : Option Nat :=
  (List.range' (p + 1) (b.size - (p + 1))).find? (fun i => !(cellB b 2 i == '.'))

/-- Extra term `advanced_heuristic` adds for the first blocking cell at
column `i` of the exit row (`solve.py` lines 234-260): the up estimate is
the count of the glyphs 'v', '>', '<', '-' in rows 1 and 0 at column `i`,
except that it stays at `len(cars) + 1` when the blocker cell is '|', or
is 'v' with '|' above, or is '^' with '|' below; the down estimate is the
count of the glyphs '^', '>', '<', '-' in rows 3, 4 and 5 at column `i`;
the term is the minimum of the two. -/
def advExtra (b : Board) (i : Nat) : Nat :=
  let up :=
    if !(cellB b 2 i == '|') &&
       (!(cellB b 2 i == 'v') || !(cellB b 1 i == '|')) &&
       (!(cellB b 2 i == '^') || !(cellB b 3 i == '|')) then
      (if cellB b 1 i == 'v' || cellB b 1 i == '>' || cellB b 1 i == '<' ||
          cellB b 1 i == '-' then 1 else 0) +
      (if cellB b 0 i == 'v' || cellB b 0 i == '>' || cellB b 0 i == '<' ||
          cellB b 0 i == '-' then 1 else 0)
    else b.cars.length + 1
  let down :=
    (if cellB b 3 i == '^' || cellB b 3 i == '>' || cellB b 3 i == '<' ||
        cellB b 3 i == '-' then 1 else 0) +
    (if cellB b 4 i == '^' || cellB b 4 i == '>' || cellB b 4 i == '<' ||
        cellB b 4 i == '-' then 1 else 0) +
    (if cellB b 5 i == '^' || cellB b 5 i == '>' || cellB b 5 i == '<' ||
        cellB b 5 i == '-' then 1 else 0)
  min up down

/-- Embedding of `advanced_heuristic` (`solve.py` lines 221-263): the
blocking value, plus `advExtra` at the first blocking cell right of the
first '>' of the exit row when there is one.  Either `.index(">")` call
raising is embedded as `none`. -/
def advanced_heuristic (b : Board) : Option Nat :=
  match blocking_heuristic b with
  | none => none
  | some n =>
    match (exitRow b).findIdx? (fun ch => ch == '>') with
    | none => none
    | some p =>
      match firstBlocker b p with
      | none => some n
      | some i => some (n + advExtra b i)

/-! Helper lemmas about scans over the exit row. -/

/-- Counting over the tail segment of the exit row equals filtering the
full index range by the strict lower bound. -/
theorem countP_range'_eq_filter_range (n p : Nat) (f : Nat → Bool) :
    (List.range' (p + 1) (n - (p + 1))).countP f
      = ((List.range n).filter (fun i => decide (p < i) && f i)).length := by
  by_cases h : p + 1 ≤ n
  · have hsplit : List.range n
        = List.range' 0 (p + 1) ++ List.range' (p + 1) (n - (p + 1)) := by
      rw [List.range_eq_range']
      have hap := List.range'_append 0 (p + 1) (n - (p + 1)) 1
      simp only [Nat.zero_add, Nat.one_mul] at hap
      calc List.range' 0 n = List.range' 0 ((n - (p + 1)) + (p + 1)) := by
            congr 1
            omega
        _ = List.range' 0 (p + 1) ++ List.range' (p + 1) (n - (p + 1)) := hap.symm
    rw [hsplit, List.filter_append]
    have h1 : (List.range' 0 (p + 1)).filter
        (fun i => decide (p < i) && f i) = [] := by
      apply List.filter_eq_nil_iff.mpr
      intro a ha
      rw [List.mem_range'_1] at ha
      simp only [Bool.and_eq_true, decide_eq_true_eq]
      omega
    have h2 : (List.range' (p + 1) (n - (p + 1))).filter
        (fun i => decide (p < i) && f i)
        = (List.range' (p + 1) (n - (p + 1))).filter f := by
      apply List.filter_congr
      intro a ha
      rw [List.mem_range'_1] at ha
      have : p < a := by omega
      simp [this]
    rw [h1, h2, List.countP_eq_length_filter]
    simp
  · have hz : n - (p + 1) = 0 := by omega
    rw [hz]
    have : (List.range n).filter (fun i => decide (p < i) && f i) = [] := by
      apply List.filter_eq_nil_iff.mpr
      intro a ha
      rw [List.mem_range] at ha
      simp only [Bool.and_eq_true, decide_eq_true_eq]
      omega
    rw [this]
    rfl

/-- Reading the exit cell as the tail glyph forces the tail glyph to occur
in the exit row. -/
theorem mem_exitRow_of_cell (b : Board) (h : cellB b 2 5 = '>') :
    '>' ∈ exitRow b := by
  have hc : (exitRow b).getD 5 ' ' = '>' := h
  rw [List.getD_eq_getElem?_getD] at hc
  cases hg : (exitRow b)[5]? with
  | none => rw [hg] at hc; simp at hc
  | some x =>
    rw [hg] at hc
    simp at hc
    subst hc
    exact List.getElem?_mem hg

/-- A list containing the tail glyph yields a found index. -/
theorem findIdx?_some_of_mem (l : List Char) (h : '>' ∈ l) :
    ∃ p, l.findIdx? (fun ch => ch == '>') = some p := by
  have hany : l.any (fun ch => ch == '>') = true :=
    List.any_eq_true.mpr ⟨'>', h, by simp⟩
  have hs : (l.findIdx? (fun ch => ch == '>')).isSome = true := by
    rw [List.findIdx?_isSome, hany]
  cases hf : l.findIdx? (fun ch => ch == '>') with
  | none => rw [hf] at hs; simp at hs
  | some p => exact ⟨p, rfl⟩

/-- Characterisation of the first hit of a scan over a contiguous index
range: if `i` is in range, satisfies the predicate, and everything in
range before it does not, the scan finds `i`. -/
theorem find?_range'_eq_some (f : Nat → Bool) :
    ∀ (k s i : Nat), s ≤ i → i < s + k → f i = true →
    (∀ j, s ≤ j → j < i → f j = false) →
    (List.range' s k).find? f = some i := by
  intro k
  induction k with
  | zero => intro s i h1 h2; omega
  | succ k ih =>
    intro s i h1 h2 h3 h4
    rw [List.range'_succ]
    by_cases hs : s = i
    · subst hs
      simp [List.find?, h3]
    · have hlt : s < i := by omega
      have hf : f s = false := h4 s (Nat.le_refl s) hlt
      simp only [List.find?, hf]
      exact ih (s + 1) i (by omega) (by omega) h3 (fun j hj hji => h4 j (by omega) hji)

/-! Concrete boards used by witnesses and counterexamples. -/

/-- Board with the exit vehicle at columns 0-1 of row 2, two horizontal
length-2 vehicles stacked at rows 0-1 over columns 3-4, and a vertical
length-2 vehicle in column 3 over rows 2-3. -/
def cexBoard : Board :=
  mkBoard "jam" 6 [⟨"h", 2, 0, 2⟩, ⟨"h", 0, 3, 2⟩, ⟨"h", 1, 3, 2⟩, ⟨"v", 3, 2, 2⟩]

/-- Same vehicles as `cexBoard` under another name. -/
def cexBoard2 : Board :=
  mkBoard "jam-copy" 6 [⟨"h", 2, 0, 2⟩, ⟨"h", 0, 3, 2⟩, ⟨"h", 1, 3, 2⟩, ⟨"v", 3, 2, 2⟩]

/-- Board whose exit vehicle already sits at the exit cells. -/
def goalBoardW : Board := mkBoard "goal" 6 [⟨"h", 2, 4, 2⟩]

/-- Non-goal board whose exit row holds no tail glyph at all. -/
def noTailBoard : Board := mkBoard "vert" 6 [⟨"v", 0, 0, 2⟩]

/-- C1: `blocking_heuristic` returns 0 exactly on goal boards; on a
non-goal board whose exit row shows a tail glyph first at index `p` it
returns one plus the number of non-free cells of the exit row strictly
right of `p`, hence always at least 1 on non-goal boards. -/
theorem blocking_heuristic_spec :
    (∀ b : Board, blocking_heuristic b = some 0 ↔ isGoalBoard b = true) ∧
    (∀ (b : Board) (p : Nat), isGoalBoard b = false →
      (exitRow b).findIdx? (fun ch => ch == '>') = some p →
      blocking_heuristic b = some (1 + ((List.range b.size).filter
        (fun i => decide (p < i) && !(cellB b 2 i == '.'))).length)) ∧
    (∀ (b : Board) (n : Nat), isGoalBoard b = false →
      blocking_heuristic b = some n → 1 ≤ n) := by
  refine ⟨fun b => ?_, fun b p hg hf => ?_, fun b n hg hb => ?_⟩
  · cases hg : isGoalBoard b with
    | true => simp [blocking_heuristic, hg]
    | false =>
      cases hf : (exitRow b).findIdx? (fun ch => ch == '>') with
      | none => simp [blocking_heuristic, hg, hf]
      | some p => simp [blocking_heuristic, hg, hf]
  · simp only [blocking_heuristic, hg, Bool.false_eq_true, if_false, hf]
    rw [countP_range'_eq_filter_range]
  · simp only [blocking_heuristic, hg, Bool.false_eq_true, if_false] at hb
    cases hf : (exitRow b).findIdx? (fun ch => ch == '>') with
    | none => rw [hf] at hb; simp at hb
    | some p =>
      rw [hf] at hb
      simp only [Option.some_inj] at hb
      omega

/-- Witness for C1 at `cexBoard` (first tail glyph at index 1). -/
theorem blocking_heuristic_spec_witness :
    isGoalBoard cexBoard = false ∧
    blocking_heuristic cexBoard = some (1 + ((List.range cexBoard.size).filter
      (fun i => decide (1 < i) && !(cellB cexBoard 2 i == '.'))).length) :=
  ⟨by decide, blocking_heuristic_spec.2.1 cexBoard 1 (by decide) (by decide)⟩

/-- C2: the advanced heuristic never drops below the blocking heuristic
where both are defined, and it is a function of the board's grid, vehicle
list and size only (the size of a constructed board is its grid's row
count, so boards with identical grids and car lists agree). -/
theorem advanced_heuristic_dominates :
    (∀ (b : Board) (n a : Nat), blocking_heuristic b = some n →
      advanced_heuristic b = some a → n ≤ a) ∧
    (∀ b1 b2 : Board, b1.grid = b2.grid → b1.cars = b2.cars →
      b1.size = b1.grid.length → b2.size = b2.grid.length →
      advanced_heuristic b1 = advanced_heuristic b2) := by
  constructor
  · intro b n a hb ha
    cases hf : (exitRow b).findIdx? (fun ch => ch == '>') with
    | none => simp [advanced_heuristic, hb, hf] at ha
    | some p =>
      cases hfb : firstBlocker b p with
      | none =>
        simp [advanced_heuristic, hb, hf, hfb] at ha
        omega
      | some i =>
        simp [advanced_heuristic, hb, hf, hfb] at ha
        omega
  · intro b1 b2 hg hc hs1 hs2
    obtain ⟨m1, s1, c1, g1⟩ := b1
    obtain ⟨m2, s2, c2, g2⟩ := b2
    dsimp only at hg hc hs1 hs2
    subst hg hc
    have hs : s1 = s2 := by rw [hs1, hs2]
    subst hs
    rfl

/-- Witness for C2 at `cexBoard` and its renamed copy. -/
theorem advanced_heuristic_dominates_witness :
    (2 : Nat) ≤ 2 ∧ advanced_heuristic cexBoard = advanced_heuristic cexBoard2 :=
  ⟨advanced_heuristic_dominates.1 cexBoard 2 2 (by decide) (by decide),
   advanced_heuristic_dominates.2 cexBoard cexBoard2 (by decide) (by decide)
     (by decide) (by decide)⟩

/-- C10: on a non-goal board whose exit row holds no tail glyph, both
heuristics are undefined (the Python lookup raises); under the
precondition that every non-goal board shows a tail glyph in its exit
row, both heuristics are defined (and, being `Nat`, non-negative). -/
theorem heuristics_totality :
    (∀ b : Board, isGoalBoard b = false →
      (exitRow b).findIdx? (fun ch => ch == '>') = none →
      blocking_heuristic b = none ∧ advanced_heuristic b = none) ∧
    (∀ b : Board, (isGoalBoard b = false → '>' ∈ exitRow b) →
      (∃ n, blocking_heuristic b = some n) ∧
      (∃ m, advanced_heuristic b = some m)) := by
  constructor
  · intro b hg hf
    have hb : blocking_heuristic b = none := by
      simp [blocking_heuristic, hg, hf]
    exact ⟨hb, by simp [advanced_heuristic, hb]⟩
  · intro b hpre
    cases hg : isGoalBoard b with
    | true =>
      have hb : blocking_heuristic b = some 0 := by
        simp [blocking_heuristic, hg]
      have hmem : '>' ∈ exitRow b := by
        apply mem_exitRow_of_cell
        have := hg
        unfold isGoalBoard at this
        simp only [Bool.and_eq_true, beq_iff_eq] at this
        exact this.2
      obtain ⟨p, hp⟩ := findIdx?_some_of_mem _ hmem
      refine ⟨⟨0, hb⟩, ?_⟩
      cases hfb : firstBlocker b p with
      | none => exact ⟨0, by simp [advanced_heuristic, hb, hp, hfb]⟩
      | some i => exact ⟨advExtra b i, by simp [advanced_heuristic, hb, hp, hfb]⟩
    | false =>
      obtain ⟨p, hp⟩ := findIdx?_some_of_mem _ (hpre hg)
      have hb : blocking_heuristic b
          = some (1 + (List.range' (p + 1) (b.size - (p + 1))).countP
            (fun i => !(cellB b 2 i == '.'))) := by
        simp [blocking_heuristic, hg, hp]
      refine ⟨⟨_, hb⟩, ?_⟩
      cases hfb : firstBlocker b p with
      | none =>
        exact ⟨1 + (List.range' (p + 1) (b.size - (p + 1))).countP
          (fun i => !(cellB b 2 i == '.')),
          by simp [advanced_heuristic, hb, hp, hfb]⟩
      | some i =>
        exact ⟨1 + (List.range' (p + 1) (b.size - (p + 1))).countP
          (fun i => !(cellB b 2 i == '.')) + advExtra b i,
          by simp [advanced_heuristic, hb, hp, hfb]⟩

/-- Witness for C10 at `noTailBoard` (undefined side) and `cexBoard`
(defined side). -/
theorem heuristics_totality_witness :
    (blocking_heuristic noTailBoard = none ∧
     advanced_heuristic noTailBoard = none) ∧
    (∃ n, blocking_heuristic cexBoard = some n) ∧
    (∃ m, advanced_heuristic cexBoard = some m) :=
  ⟨heuristics_totality.1 noTailBoard (by decide) (by decide),
   heuristics_totality.2 cexBoard (fun _ => by decide)⟩

/-- Formalisation of the claim's own words for the extra term of the
advanced heuristic: the minimum of the number of vehicle-occupied
(non-free) cells in the two rows above the blocker's cell and the number
in the three rows below it. -/
def claimedExtra (b : Board) (i : Nat) : Nat :=
  min ((if !(cellB b 0 i == '.') then 1 else 0) +
       (if !(cellB b 1 i == '.') then 1 else 0))
      ((if !(cellB b 3 i == '.') then 1 else 0) +
       (if !(cellB b 4 i == '.') then 1 else 0) +
       (if !(cellB b 5 i == '.') then 1 else 0))

/-- Counterexample to C3 at `cexBoard`: the first blocker right of the
tail glyph at index 1 sits at column 3; the claim's extra term there is 1
(two occupied cells above, one below), so the claim predicts the advanced
value `blocking + 1 = 3`, but the code returns 2: the code counts only
the glyphs 'v', '>', '<', '-' above (so the blocker's own tail glyph
below is invisible to its down count), and its up estimate is infinite
only in the one-sided '|' cases, with the minimum still falling to the
finite down count. -/
theorem advanced_heuristic_cex :
    blocking_heuristic cexBoard = some 2 ∧
    (exitRow cexBoard).findIdx? (fun ch => ch == '>') = some 1 ∧
    firstBlocker cexBoard 1 = some 3 ∧
    claimedExtra cexBoard 3 = 1 ∧
    advanced_heuristic cexBoard = some 2 ∧
    advanced_heuristic cexBoard ≠ some (2 + claimedExtra cexBoard 3) := by
  refine ⟨by decide, by decide, by decide, by decide, by decide, by decide⟩

/-- Description of the code's extra term: minimum of an up estimate and a
down estimate, where the down estimate counts the cells of rows 3, 4, 5
at the blocker's column holding '^', '>', '<' or '-', and the up estimate
counts the cells of rows 1, 0 holding 'v', '>', '<' or '-' unless the
blocker cell is '|', or is 'v' with '|' above, or is '^' with '|' below,
in which case the up estimate is the vehicle count plus one. -/
theorem advExtra_eq (b : Board) (i : Nat) :
    advExtra b i =
      min (if cellB b 2 i = '|' ∨ (cellB b 2 i = 'v' ∧ cellB b 1 i = '|') ∨
              (cellB b 2 i = '^' ∧ cellB b 3 i = '|')
           then b.cars.length + 1
           else ([(1 : Nat), 0].countP (fun r =>
             cellB b r i == 'v' || cellB b r i == '>' || cellB b r i == '<' ||
             cellB b r i == '-')))
          ([(3 : Nat), 4, 5].countP (fun r =>
             cellB b r i == '^' || cellB b r i == '>' || cellB b r i == '<' ||
             cellB b r i == '-')) := by
  unfold advExtra
  by_cases h : cellB b 2 i = '|' ∨ (cellB b 2 i = 'v' ∧ cellB b 1 i = '|') ∨
      (cellB b 2 i = '^' ∧ cellB b 3 i = '|')
  · have hb : (!(cellB b 2 i == '|') &&
       (!(cellB b 2 i == 'v') || !(cellB b 1 i == '|')) &&
       (!(cellB b 2 i == '^') || !(cellB b 3 i == '|'))) = false := by
      rcases h with h1 | ⟨h1, h2⟩ | ⟨h1, h2⟩ <;> simp_all
    rw [hb]
    simp only [if_pos h, Bool.false_eq_true, if_false]
    congr 1
    simp [List.countP_cons]
    ring
  · have hb : (!(cellB b 2 i == '|') &&
       (!(cellB b 2 i == 'v') || !(cellB b 1 i == '|')) &&
       (!(cellB b 2 i == '^') || !(cellB b 3 i == '|'))) = true := by
      push_neg at h
      obtain ⟨h1, h2, h3⟩ := h
      simp only [Bool.and_eq_true, Bool.or_eq_true, Bool.not_eq_true']
      refine ⟨⟨by simp [h1], ?_⟩, ?_⟩
      · by_cases hv : cellB b 2 i = 'v'
        · right; simp [h2 hv]
        · left; simp [hv]
      · by_cases hv : cellB b 2 i = '^'
        · right; simp [h3 hv]
        · left; simp [hv]
    rw [hb]
    simp only [if_neg h, if_true]
    congr 1
    · simp [List.countP_cons]
      ring
    · simp [List.countP_cons]
      ring

/-- C3 amended: on a board whose blocking value is defined, the advanced
heuristic adds exactly one extra term at the first non-free cell of the
exit row strictly right of the first tail glyph (and nothing when no such
cell exists); the term is the minimum of the code's up estimate — the
count of 'v', '>', '<', '-' in the two rows above, replaced by the
vehicle count plus one when the blocker cell is '|', or 'v' with '|'
above, or '^' with '|' below — and the code's down estimate, the count of
'^', '>', '<', '-' in the three rows below; in the replaced case the
minimum therefore falls to the down estimate. -/
theorem advanced_heuristic_amended :
    ∀ (b : Board) (p n : Nat),
      (exitRow b).findIdx? (fun ch => ch == '>') = some p →
      blocking_heuristic b = some n →
      (∀ i, p < i → i < b.size → cellB b 2 i ≠ '.' →
        (∀ j, p < j → j < i → cellB b 2 j = '.') →
        advanced_heuristic b = some (n +
          min (if cellB b 2 i = '|' ∨ (cellB b 2 i = 'v' ∧ cellB b 1 i = '|') ∨
                  (cellB b 2 i = '^' ∧ cellB b 3 i = '|')
               then b.cars.length + 1
               else ([(1 : Nat), 0].countP (fun r =>
                 cellB b r i == 'v' || cellB b r i == '>' ||
                 cellB b r i == '<' || cellB b r i == '-')))
              ([(3 : Nat), 4, 5].countP (fun r =>
                 cellB b r i == '^' || cellB b r i == '>' ||
                 cellB b r i == '<' || cellB b r i == '-')))) ∧
      ((∀ j, p < j → j < b.size → cellB b 2 j = '.') →
        advanced_heuristic b = some n) := by
  intro b p n hf hb
  constructor
  · intro i hpi his hcell hpred
    have hfb : firstBlocker b p = some i := by
      unfold firstBlocker
      apply find?_range'_eq_some
      · omega
      · omega
      · simp [hcell]
      · intro j h1 h2
        simp [hpred j (by omega) h2]
    have : advanced_heuristic b = some (n + advExtra b i) := by
      simp [advanced_heuristic, hb, hf, hfb]
    rw [this, advExtra_eq]
  · intro hall
    have hfb : firstBlocker b p = none := by
      unfold firstBlocker
      apply List.find?_eq_none.mpr
      intro j hj
      rw [List.mem_range'_1] at hj
      by_cases hs : p + 1 ≤ b.size
      · simp [hall j (by omega) (by omega)]
      · omega
    simp [advanced_heuristic, hb, hf, hfb]

/-- Witness for the amended C3 at `cexBoard` with blocker column 3. -/
theorem advanced_heuristic_amended_witness :
    advanced_heuristic cexBoard = some (2 +
      min (if cellB cexBoard 2 3 = '|' ∨
              (cellB cexBoard 2 3 = 'v' ∧ cellB cexBoard 1 3 = '|') ∨
              (cellB cexBoard 2 3 = '^' ∧ cellB cexBoard 3 3 = '|')
           then cexBoard.cars.length + 1
           else ([(1 : Nat), 0].countP (fun r =>
             cellB cexBoard r 3 == 'v' || cellB cexBoard r 3 == '>' ||
             cellB cexBoard r 3 == '<' || cellB cexBoard r 3 == '-')))
          ([(3 : Nat), 4, 5].countP (fun r =>
             cellB cexBoard r 3 == '^' || cellB cexBoard r 3 == '>' ||
             cellB cexBoard r 3 == '<' || cellB cexBoard r 3 == '-'))) :=
  (advanced_heuristic_amended cexBoard 1 2 (by decide) (by decide)).1 3
    (by decide) (by decide) (by decide)
    (by intro j h1 h2; interval_cases j; decide)

/-! Search nodes and the successor generator. -/

/-- Modelled from the spec: a search node (`State` in `board.py`) wraps a
board with the heuristic function, the stored priority `f`, the depth
(path cost) and a parent back-reference used for path reconstruction. -/
inductive State where
  | mk (board : Board) (hfn : Board → Nat) (f : Nat) (depth : Nat)
       (parent : Option State)

/-- Board of a node. -/
def State.board : State → Board
  | .mk b _ _ _ _ => b

/-- Heuristic function stored in a node. -/
def State.hfn : State → (Board → Nat)
  | .mk _ h _ _ _ => h

/-- Stored priority of a node. -/
def State.f : State → Nat
  | .mk _ _ f _ _ => f

/-- Depth (path cost so far) of a node. -/
def State.depth : State → Nat
  | .mk _ _ _ d _ => d

/-- Parent back-reference of a node. -/
def State.parent : State → Option State
  | .mk _ _ _ _ p => p

instance : Inhabited State := ⟨.mk default (fun _ => 0) 0 0 none⟩

/-- Glyph encoding used to derive a numeric board identity. -/
def glyphCode : Char → Nat
  | '.' => 0
  | '<' => 1
  | '>' => 2
  | '-' => 3
  | '^' => 4
  | 'v' => 5
  | '|' => 6
  | _ => 7

/-- Accumulate one row of the grid into the identity, base 8. -/
def rowId (acc : Nat) (row : List Char) : Nat :=
  row.foldl (fun a c => a * 8 + glyphCode c) acc

/-- Modelled from the spec: the identity of a node is a canonical value
derived deterministically from the board's grid contents alone, so two
nodes with identical board layouts have equal identity. -/
def gridId (g : Grid) : Nat :=
  g.foldl rowId 0

/-- Identity of a node (`state.id`). -/
def stateId (s : State) : Nat := gridId s.board.grid

/-- Modelled from the spec: the zero heuristic used by uninformed
search. -/
def zero_heuristic : Board → Nat := fun _ => 0

/-- Walk from `v - 1` toward coordinate 0, collecting cells while they
are free and stopping at the first non-free cell (the negative-direction
loops of `solve.py` lines 110-116 and 134-140). -/
def negWalk (free : Nat → Bool) : Nat → List Nat
  | 0 => []
  | v + 1 => if free v then v :: negWalk free v else []

/-- Walk from `start` upward for at most `k` cells, collecting cells
while they are free and stopping at the first non-free cell (the
positive-direction loops of `solve.py` lines 119-126 and 143-150). -/
def posWalk (free : Nat → Bool) : Nat → Nat → List Nat
  | 0, _ => []
  | k + 1, start => if free start then start :: posWalk free k (start + 1) else []

/-- Embedding of `addNeighbour` (`solve.py` lines 152-157): build the new
board from the updated vehicle list, and wrap it in a node of depth one
more than the parent, with the stored priority recomputed as heuristic of
the new board plus the new depth, and the parent back-reference set. -/
def addNeighbour (s : State) (cars : List Car) : State :=
  let newBoard := mkBoard s.board.name s.board.size cars
  State.mk newBoard s.hfn (s.hfn newBoard + (s.depth + 1)) (s.depth + 1) (some s)

/-- Embedding of `addVerticalNeighbours` (`solve.py` lines 104-126). -/
def addVerticalNeighbours (s : State) (i : Nat) : List State :=
  let b := s.board
  let car := b.cars.getD i default
  ((negWalk (fun y => cellB b y car.fix_coord == '.') car.var_coord).map
    (fun y => addNeighbour s (b.cars.set i { car with var_coord := y }))) ++
  ((posWalk (fun y => cellB b y car.fix_coord == '.')
      (b.size - (car.var_coord + car.length)) (car.var_coord + car.length)).map
    (fun y => addNeighbour s (b.cars.set i { car with var_coord := y - car.length + 1 })))

/-- Embedding of `addHorizontalNeighbours` (`solve.py` lines 128-150). -/
def addHorizontalNeighbours (s : State) (i : Nat) : List State :=
  let b := s.board
  let car := b.cars.getD i default
  ((negWalk (fun x => cellB b car.fix_coord x == '.') car.var_coord).map
    (fun x => addNeighbour s (b.cars.set i { car with var_coord := x }))) ++
  ((posWalk (fun x => cellB b car.fix_coord x == '.')
      (b.size - (car.var_coord + car.length)) (car.var_coord + car.length)).map
    (fun x => addNeighbour s (b.cars.set i { car with var_coord := x - car.length + 1 })))

/-- Embedding of `get_successors` (`solve.py` lines 83-102). -/
def get_successors (s : State) : List State :=
  (List.range s.board.cars.length).flatMap (fun i =>
    if (s.board.cars.getD i default).orientation == "h" then
      addHorizontalNeighbours s i
    else
      addVerticalNeighbours s i)

/-- Embedding of `get_path` (`solve.py` lines 172-190): follow parent
links and reverse. -/
def get_path (s : State) : List State :=
  match s with
  | .mk b h f d none => [State.mk b h f d none]
  | .mk b h f d (some p) => get_path p ++ [State.mk b h f d (some p)]

/-- Embedding of `is_goal` (`solve.py` lines 159-169). -/
def is_goal (s : State) : Bool := isGoalBoard s.board

/-! Characterisation of the slide walks. -/

/-- Membership in the negative-direction walk: exactly the cells below
the span with every cell between them and the span free. -/
theorem mem_negWalk (free : Nat → Bool) :
    ∀ v y, y ∈ negWalk free v ↔
      (y < v ∧ ∀ z, y ≤ z → z < v → free z = true) := by
  intro v
  induction v with
  | zero => intro y; simp [negWalk]
  | succ v ih =>
    intro y
    unfold negWalk
    by_cases hf : free v = true
    · rw [if_pos hf]
      constructor
      · intro hy
        rcases List.mem_cons.mp hy with h | h
        · refine ⟨by omega, fun z hz1 hz2 => ?_⟩
          have hzv : z = v := by omega
          rw [hzv]
          exact hf
        · obtain ⟨h1, h2⟩ := (ih y).mp h
          refine ⟨by omega, fun z hz1 hz2 => ?_⟩
          by_cases hzv : z = v
          · rw [hzv]; exact hf
          · exact h2 z hz1 (by omega)
      · rintro ⟨h1, h2⟩
        by_cases hyv : y = v
        · subst hyv; exact List.mem_cons_self _ _
        · exact List.mem_cons_of_mem _
            ((ih y).mpr ⟨by omega, fun z hz1 hz2 => h2 z hz1 (by omega)⟩)
    · rw [if_neg hf]
      simp only [List.not_mem_nil, false_iff]
      rintro ⟨h1, h2⟩
      exact hf (h2 v (by omega) (by omega))

/-- Membership in the positive-direction walk: exactly the cells of the
window past the span with every cell from the window's start up to them
free. -/
theorem mem_posWalk (free : Nat → Bool) :
    ∀ k start y, y ∈ posWalk free k start ↔
      (start ≤ y ∧ y < start + k ∧
        ∀ z, start ≤ z → z ≤ y → free z = true) := by
  intro k
  induction k with
  | zero => intro start y; simp [posWalk]; omega
  | succ k ih =>
    intro start y
    unfold posWalk
    by_cases hf : free start = true
    · rw [if_pos hf]
      constructor
      · intro hy
        rcases List.mem_cons.mp hy with h | h
        · refine ⟨by omega, by omega, fun z hz1 hz2 => ?_⟩
          have hzs : z = start := by omega
          rw [hzs]
          exact hf
        · obtain ⟨h1, h2, h3⟩ := (ih (start + 1) y).mp h
          refine ⟨by omega, by omega, fun z hz1 hz2 => ?_⟩
          by_cases hzs : z = start
          · rw [hzs]; exact hf
          · exact h3 z (by omega) hz2
      · rintro ⟨h1, h2, h3⟩
        by_cases hys : y = start
        · subst hys; exact List.mem_cons_self _ _
        · exact List.mem_cons_of_mem _
            ((ih (start + 1) y).mpr
              ⟨by omega, by omega, fun z hz1 hz2 => h3 z (by omega) hz2⟩)
    · rw [if_neg hf]
      simp only [List.not_mem_nil, false_iff]
      rintro ⟨h1, h2, h3⟩
      exact hf (h3 start (Nat.le_refl _) h1)

/-- The negative walk visits at most the cells below the span. -/
theorem length_negWalk (free : Nat → Bool) :
    ∀ v, (negWalk free v).length ≤ v := by
  intro v
  induction v with
  | zero => simp [negWalk]
  | succ v ih =>
    unfold negWalk
    by_cases hf : free v = true
    · rw [if_pos hf]
      simpa using Nat.succ_le_succ ih
    · rw [if_neg hf]
      simp

/-- The positive walk visits at most its window. -/
theorem length_posWalk (free : Nat → Bool) :
    ∀ k start, (posWalk free k start).length ≤ k := by
  intro k
  induction k with
  | zero => intro start; simp [posWalk]
  | succ k ih =>
    intro start
    unfold posWalk
    by_cases hf : free start = true
    · rw [if_pos hf]
      simpa using Nat.succ_le_succ (ih (start + 1))
    · rw [if_neg hf]
      simp

/-- Membership in the vertical successor list: exactly the up-moves to a
cell `y` with everything between `y` and the span free, and the
down-moves whose trailing end lands on a free-reachable cell `e`. -/
theorem mem_addVerticalNeighbours (s : State) (i : Nat) (car : Car)
    (hcar : car = s.board.cars.getD i default) (t : State) :
    t ∈ addVerticalNeighbours s i ↔
      ∃ y, t = addNeighbour s (s.board.cars.set i { car with var_coord := y }) ∧
        ((y < car.var_coord ∧ ∀ z, y ≤ z → z < car.var_coord →
            cellB s.board z car.fix_coord = '.') ∨
         (∃ e, car.var_coord + car.length ≤ e ∧ e < s.board.size ∧
            y = e - car.length + 1 ∧
            ∀ z, car.var_coord + car.length ≤ z → z ≤ e →
              cellB s.board z car.fix_coord = '.')) := by
  rw [hcar]
  simp only [addVerticalNeighbours, List.mem_append, List.mem_map]
  constructor
  · rintro (⟨y, hy, rfl⟩ | ⟨e, he, rfl⟩)
    · obtain ⟨h1, h2⟩ := (mem_negWalk _ _ _).mp hy
      exact ⟨y, rfl, Or.inl ⟨h1, fun z hz1 hz2 => eq_of_beq (h2 z hz1 hz2)⟩⟩
    · obtain ⟨h1, h2, h3⟩ := (mem_posWalk _ _ _ _).mp he
      exact ⟨_, rfl, Or.inr ⟨e, h1, by omega, rfl,
        fun z hz1 hz2 => eq_of_beq (h3 z hz1 hz2)⟩⟩
  · rintro ⟨y, rfl, (⟨h1, h2⟩ | ⟨e, h1, h2, rfl, h3⟩)⟩
    · exact Or.inl ⟨y, (mem_negWalk _ _ _).mpr
        ⟨h1, fun z hz1 hz2 => by
          simp only [beq_iff_eq]
          exact h2 z hz1 hz2⟩, rfl⟩
    · exact Or.inr ⟨e, (mem_posWalk _ _ _ _).mpr
        ⟨h1, by omega, fun z hz1 hz2 => by
          simp only [beq_iff_eq]
          exact h3 z hz1 hz2⟩, rfl⟩

/-- Membership in the horizontal successor list, symmetric to the
vertical one along the row. -/
theorem mem_addHorizontalNeighbours (s : State) (i : Nat) (car : Car)
    (hcar : car = s.board.cars.getD i default) (t : State) :
    t ∈ addHorizontalNeighbours s i ↔
      ∃ x, t = addNeighbour s (s.board.cars.set i { car with var_coord := x }) ∧
        ((x < car.var_coord ∧ ∀ z, x ≤ z → z < car.var_coord →
            cellB s.board car.fix_coord z = '.') ∨
         (∃ e, car.var_coord + car.length ≤ e ∧ e < s.board.size ∧
            x = e - car.length + 1 ∧
            ∀ z, car.var_coord + car.length ≤ z → z ≤ e →
              cellB s.board car.fix_coord z = '.')) := by
  rw [hcar]
  simp only [addHorizontalNeighbours, List.mem_append, List.mem_map]
  constructor
  · rintro (⟨x, hx, rfl⟩ | ⟨e, he, rfl⟩)
    · obtain ⟨h1, h2⟩ := (mem_negWalk _ _ _).mp hx
      exact ⟨x, rfl, Or.inl ⟨h1, fun z hz1 hz2 => eq_of_beq (h2 z hz1 hz2)⟩⟩
    · obtain ⟨h1, h2, h3⟩ := (mem_posWalk _ _ _ _).mp he
      exact ⟨_, rfl, Or.inr ⟨e, h1, by omega, rfl,
        fun z hz1 hz2 => eq_of_beq (h3 z hz1 hz2)⟩⟩
  · rintro ⟨x, rfl, (⟨h1, h2⟩ | ⟨e, h1, h2, rfl, h3⟩)⟩
    · exact Or.inl ⟨x, (mem_negWalk _ _ _).mpr
        ⟨h1, fun z hz1 hz2 => by
          simp only [beq_iff_eq]
          exact h2 z hz1 hz2⟩, rfl⟩
    · exact Or.inr ⟨e, (mem_posWalk _ _ _ _).mpr
        ⟨h1, by omega, fun z hz1 hz2 => by
          simp only [beq_iff_eq]
          exact h3 z hz1 hz2⟩, rfl⟩

/-- Membership in the full successor list routes through the per-vehicle
lists, horizontal vehicles via the row rule and all others via the
column rule. -/
theorem mem_get_successors (s : State) (t : State) :
    t ∈ get_successors s ↔ ∃ j, j < s.board.cars.length ∧
      t ∈ (if (s.board.cars.getD j default).orientation == "h" then
        addHorizontalNeighbours s j else addVerticalNeighbours s j) := by
  simp only [get_successors, List.mem_flatMap, List.mem_range]

/-- C4: for every state and vehicle index, the generated successors are
exactly: one per cell `y` below the vehicle's span with every cell from
`y` up to the span free (the vehicle's low end moves to `y`), and one per
cell `e` past the span, inside the grid, with every cell from the span's
end up to `e` free (the low end moves to `e - length + 1`, so the
trailing end lands on `e`); each walk stops at its first non-free cell,
no successor crosses an occupied cell, and `get_successors` collects
these per-vehicle lists, horizontal vehicles by the row rule and all
others by the column rule. -/
theorem successor_slides :
    ∀ (s : State) (i : Nat) (car : Car), car = s.board.cars.getD i default →
      (∀ t, t ∈ addVerticalNeighbours s i ↔
        ∃ y, t = addNeighbour s (s.board.cars.set i { car with var_coord := y }) ∧
          ((y < car.var_coord ∧ ∀ z, y ≤ z → z < car.var_coord →
              cellB s.board z car.fix_coord = '.') ∨
           (∃ e, car.var_coord + car.length ≤ e ∧ e < s.board.size ∧
              y = e - car.length + 1 ∧
              ∀ z, car.var_coord + car.length ≤ z → z ≤ e →
                cellB s.board z car.fix_coord = '.'))) ∧
      (∀ t, t ∈ addHorizontalNeighbours s i ↔
        ∃ x, t = addNeighbour s (s.board.cars.set i { car with var_coord := x }) ∧
          ((x < car.var_coord ∧ ∀ z, x ≤ z → z < car.var_coord →
              cellB s.board car.fix_coord z = '.') ∨
           (∃ e, car.var_coord + car.length ≤ e ∧ e < s.board.size ∧
              x = e - car.length + 1 ∧
              ∀ z, car.var_coord + car.length ≤ z → z ≤ e →
                cellB s.board car.fix_coord z = '.'))) ∧
      (∀ t, t ∈ get_successors s ↔ ∃ j, j < s.board.cars.length ∧
        t ∈ (if (s.board.cars.getD j default).orientation == "h" then
          addHorizontalNeighbours s j else addVerticalNeighbours s j)) :=
  fun s i car hcar =>
    ⟨mem_addVerticalNeighbours s i car hcar,
     mem_addHorizontalNeighbours s i car hcar,
     mem_get_successors s⟩

/-- State used by successor-generator witnesses. -/
def stCex : State := State.mk cexBoard zero_heuristic 0 0 none

/-- Witness for C4 at `stCex`: the vertical vehicle at index 3 (column 3,
rows 2-3) slides down one cell, its trailing end landing on the free row
4. -/
theorem successor_slides_witness :
    addNeighbour stCex (stCex.board.cars.set 3
        { stCex.board.cars.getD 3 default with var_coord := 3 })
      ∈ addVerticalNeighbours stCex 3 :=
  ((successor_slides stCex 3 (stCex.board.cars.getD 3 default) rfl).1 _).mpr
    ⟨3, rfl, Or.inr ⟨4, by decide, by decide, by decide, by
      intro z hz1 hz2
      have hv : (stCex.board.cars.getD 3 default).var_coord
          + (stCex.board.cars.getD 3 default).length = 4 := by decide
      rw [hv] at hz1
      have hz : z = 4 := by omega
      subst hz
      decide⟩⟩

/-- C5: every successor is a fresh node over a vehicle list differing
from the parent's only in the moved vehicle's `var_coord` (and actually
differing there), whose board is rebuilt by the constructor from that
list with the parent's name and size, whose depth is the parent's plus
one, whose stored priority is the node's heuristic of the new board plus
that depth, and whose parent reference is the expanded node. -/
theorem successor_node_structure :
    ∀ (s t : State), t ∈ get_successors s →
      ∃ i y, i < s.board.cars.length ∧
        y ≠ (s.board.cars.getD i default).var_coord ∧
        t.board = mkBoard s.board.name s.board.size
          (s.board.cars.set i
            { s.board.cars.getD i default with var_coord := y }) ∧
        t.depth = s.depth + 1 ∧
        t.hfn = s.hfn ∧
        t.f = s.hfn t.board + t.depth ∧
        t.parent = some s := by
  intro s t ht
  obtain ⟨j, hj, htj⟩ := (mem_get_successors s t).mp ht
  by_cases ho : (s.board.cars.getD j default).orientation == "h"
  · rw [if_pos ho] at htj
    obtain ⟨x, rfl, hx⟩ := (mem_addHorizontalNeighbours s j _ rfl t).mp htj
    refine ⟨j, x, hj, ?_, rfl, rfl, rfl, rfl, rfl⟩
    rcases hx with ⟨h1, _⟩ | ⟨e, h1, _, rfl, _⟩
    · omega
    · omega
  · rw [if_neg ho] at htj
    obtain ⟨y, rfl, hy⟩ := (mem_addVerticalNeighbours s j _ rfl t).mp htj
    refine ⟨j, y, hj, ?_, rfl, rfl, rfl, rfl, rfl⟩
    rcases hy with ⟨h1, _⟩ | ⟨e, h1, _, rfl, _⟩
    · omega
    · omega

/-- Successor of `stCex` moving the exit vehicle one cell right. -/
def stCexSucc : State :=
  addNeighbour stCex (stCex.board.cars.set 0
    { stCex.board.cars.getD 0 default with var_coord := 1 })

/-- Witness for C5 at `stCex` and its first exit-vehicle successor. -/
theorem successor_node_structure_witness :
    ∃ i y, i < stCex.board.cars.length ∧
      y ≠ (stCex.board.cars.getD i default).var_coord ∧
      stCexSucc.board = mkBoard stCex.board.name stCex.board.size
        (stCex.board.cars.set i
          { stCex.board.cars.getD i default with var_coord := y }) ∧
      stCexSucc.depth = stCex.depth + 1 ∧
      stCexSucc.hfn = stCex.hfn ∧
      stCexSucc.f = stCex.hfn stCexSucc.board + stCexSucc.depth ∧
      stCexSucc.parent = some stCex :=
  successor_node_structure stCex stCexSucc
    ((mem_get_successors stCex stCexSucc).mpr
      ⟨0, by decide, by
        rw [if_pos (by decide)]
        apply (mem_addHorizontalNeighbours stCex 0 _ rfl stCexSucc).mpr
        refine ⟨1, rfl, Or.inr ⟨2, by decide, by decide, by decide, ?_⟩⟩
        intro z hz1 hz2
        have hv : (stCex.board.cars.getD 0 default).var_coord
            + (stCex.board.cars.getD 0 default).length = 2 := by decide
        rw [hv] at hz1
        have hz : z = 2 := by omega
        subst hz
        decide⟩)

/-! Search drivers. -/

/-- Priority key pushed with a node: `(f, id, parent id)` with 0 for the
initial node's parent component (`solve.py` lines 29 and 43). -/
def skey (s : State) : Nat × Nat × Nat :=
  (s.f, stateId s, match s.parent with
    | none => 0
    | some p => stateId p)

/-- Lexicographic comparison of priority keys, as Python compares the
pushed tuples. -/
def keyLE (a b : Nat × Nat × Nat) : Bool :=
  Nat.blt a.1 b.1 ||
    (a.1 == b.1 && (Nat.blt a.2.1 b.2.1 ||
      (a.2.1 == b.2.1 && Nat.ble a.2.2 b.2.2)))

/-- Pop an entry with minimal key from the frontier (the `heappop` of
`solve.py`; among equal full keys the earliest-pushed entry is taken,
which cannot matter since distinct pushes carry distinct keys in real
runs). -/
def popMin : List State → Option (State × List State)
  | [] => none
  | s :: rest =>
    match popMin rest with
    | none => some (s, [])
    | some (m, rest2) =>
      if keyLE (skey s) (skey m) then some (s, rest) else some (m, s :: rest2)

/-- Loop of `a_star` (`solve.py` lines 31-47), with an explicit fuel
(`none` = fuel ran out) and the explored list returned for observation:
pop a minimal node; discard it if its identity is already explored;
otherwise mark it explored, return the reconstructed path and its cost at
a goal, and push all successors otherwise. -/
def aStarLoop : Nat → List State → List State → Option (List State × Int × List State)
  | 0, _, _ => none
  | fuel + 1, frontier, explored =>
    match popMin frontier with
    | none => some ([], -1, explored)
    | some (state, rest) =>
      if explored.any (fun s => stateId s == stateId state) then
        aStarLoop fuel rest explored
      else
        if is_goal state then
          some (get_path state, ((get_path state).length : Int) - 1,
            explored ++ [state])
        else
          aStarLoop fuel (rest ++ get_successors state) (explored ++ [state])

/-- Fuel sufficient for any run from boards like `b`: the number of
distinct identities of square grids of `b`'s size, times successors per
accepted node plus one, plus slack (proved sufficient below). -/
def fuelBound (b : Board) : Nat :=
  8 ^ (b.size * b.size) * (b.size * b.cars.length + 1) + 2

/-- Initial node of `a_star`: `State(init_board, hfn, hfn(init_board), 0)`. -/
def initState (b : Board) (hfn : Board → Nat) : State :=
  State.mk b hfn (hfn b) 0 none

/-- Embedding of `a_star` (`solve.py` lines 7-47). -/
def a_star (b : Board) (hfn : Board → Nat) : Option (List State × Int) :=
  (aStarLoop (fuelBound b) [initState b hfn] []).map (fun r => (r.1, r.2.1))

/-- Loop of `a_star_node_expanded` (`solve.py` lines 290-307): identical
to `aStarLoop` except that it counts every pop, returns the count as the
third component at a goal, and returns `-1` as the third component on
frontier exhaustion; the final value of the counter itself is returned
alongside for observation. -/
def aStarLoopC : Nat → List State → List State → Nat →
    Option ((List State × Int × Int) × Nat)
  | 0, _, _, _ => none
  | fuel + 1, frontier, explored, count =>
    match popMin frontier with
    | none => some (([], -1, -1), count)
    | some (state, rest) =>
      if explored.any (fun s => stateId s == stateId state) then
        aStarLoopC fuel rest explored (count + 1)
      else
        if is_goal state then
          some ((get_path state, ((get_path state).length : Int) - 1,
            ((count + 1 : Nat) : Int)), count + 1)
        else
          aStarLoopC fuel (rest ++ get_successors state) (explored ++ [state])
            (count + 1)

/-- Embedding of `a_star_node_expanded` (`solve.py` lines 265-307). -/
def a_star_node_expanded (b : Board) (hfn : Board → Nat) :
    Option (List State × Int × Int) :=
  (aStarLoopC (fuelBound b) [initState b hfn] [] 0).map (fun r => r.1)

/-- Observed number of pops of a run of `a_star_node_expanded`. -/
def a_star_pops (b : Board) (hfn : Board → Nat) : Option Nat :=
  (aStarLoopC (fuelBound b) [initState b hfn] [] 0).map (fun r => r.2)

/-- Descending stable sort by identity applied to successors before each
push of `dfs` (`solve.py` line 77). -/
def sortByIdDescending (l : List State) : List State :=
  l.mergeSort (fun a b => Nat.ble (stateId b) (stateId a))

/-- Loop of `dfs` (`solve.py` lines 67-80): a last-in-first-out stack
(Python `pop()` takes the last element), the same explored-set discard
policy as `a_star`, successors sorted by descending identity before being
appended. -/
def dfsLoop : Nat → List State → List State → Option (List State × Int × List State)
  | 0, _, _ => none
  | fuel + 1, frontier, explored =>
    match frontier.getLast? with
    | none => some ([], -1, explored)
    | some state =>
      if explored.any (fun s => stateId s == stateId state) then
        dfsLoop fuel frontier.dropLast explored
      else
        if is_goal state then
          some (get_path state, ((get_path state).length : Int) - 1,
            explored ++ [state])
        else
          dfsLoop fuel
            (frontier.dropLast ++ sortByIdDescending (get_successors state))
            (explored ++ [state])

/-- Embedding of `dfs` (`solve.py` lines 49-80), seeded with the
zero-heuristic initial node. -/
def dfs (b : Board) : Option (List State × Int) :=
  (dfsLoop (fuelBound b) [State.mk b zero_heuristic 0 0 none] []).map
    (fun r => (r.1, r.2.1))

/-! Properties of the frontier pop. -/

/-- The pop yields nothing exactly on an empty frontier. -/
theorem popMin_eq_none_iff (l : List State) : popMin l = none ↔ l = [] := by
  cases l with
  | nil => simp [popMin]
  | cons s rest =>
    simp only [popMin]
    cases h : popMin rest with
    | none => simp
    | some m =>
      obtain ⟨m1, m2⟩ := m
      split
      · simp
      · split <;> simp

/-- The popped node was on the frontier. -/
theorem popMin_mem : ∀ (l : List State) (s : State) (rest : List State),
    popMin l = some (s, rest) → s ∈ l := by
  intro l
  induction l with
  | nil => intro s rest h; simp [popMin] at h
  | cons a tl ih =>
    intro s rest h
    simp only [popMin] at h
    cases hp : popMin tl with
    | none =>
      simp only [hp, Option.some_inj, Prod.mk.injEq] at h
      rw [← h.1]
      exact List.mem_cons_self _ _
    | some m =>
      obtain ⟨m1, m2⟩ := m
      simp only [hp] at h
      split at h
      · simp only [Option.some_inj, Prod.mk.injEq] at h
        rw [← h.1]
        exact List.mem_cons_self _ _
      · simp only [Option.some_inj, Prod.mk.injEq] at h
        rw [← h.1]
        exact List.mem_cons_of_mem _ (ih m1 m2 hp)

/-- Everything left after a pop was on the frontier. -/
theorem popMin_sub : ∀ (l : List State) (s : State) (rest : List State),
    popMin l = some (s, rest) → ∀ x ∈ rest, x ∈ l := by
  intro l
  induction l with
  | nil => intro s rest h; simp [popMin] at h
  | cons a tl ih =>
    intro s rest h x hx
    simp only [popMin] at h
    cases hp : popMin tl with
    | none =>
      simp only [hp, Option.some_inj, Prod.mk.injEq] at h
      rw [← h.2] at hx
      simp at hx
    | some m =>
      obtain ⟨m1, m2⟩ := m
      simp only [hp] at h
      split at h
      · simp only [Option.some_inj, Prod.mk.injEq] at h
        rw [← h.2] at hx
        exact List.mem_cons_of_mem _ hx
      · simp only [Option.some_inj, Prod.mk.injEq] at h
        rw [← h.2] at hx
        rcases List.mem_cons.mp hx with hxa | hxm
        · rw [hxa]; exact List.mem_cons_self _ _
        · exact List.mem_cons_of_mem _ (ih m1 m2 hp x hxm)

/-- A pop shrinks the frontier by exactly one entry. -/
theorem popMin_length : ∀ (l : List State) (s : State) (rest : List State),
    popMin l = some (s, rest) → rest.length + 1 = l.length := by
  intro l
  induction l with
  | nil => intro s rest h; simp [popMin] at h
  | cons a tl ih =>
    intro s rest h
    simp only [popMin] at h
    cases hp : popMin tl with
    | none =>
      simp only [hp, Option.some_inj, Prod.mk.injEq] at h
      rw [← h.2]
      have htl : tl = [] := (popMin_eq_none_iff tl).mp hp
      rw [htl]
      rfl
    | some m =>
      obtain ⟨m1, m2⟩ := m
      simp only [hp] at h
      split at h
      · simp only [Option.some_inj, Prod.mk.injEq] at h
        rw [← h.2]
        rfl
      · simp only [Option.some_inj, Prod.mk.injEq] at h
        rw [← h.2]
        simp only [List.length_cons]
        rw [ih m1 m2 hp]

/-! Duplicate elimination. -/

/-- The accepted (explored) nodes of any informed-search run have
pairwise distinct identities, provided they start so. -/
theorem aStarLoop_explored_nodup :
    ∀ (fuel : Nat) (frontier explored : List State)
      (res : List State × Int × List State),
      (explored.map stateId).Nodup →
      aStarLoop fuel frontier explored = some res →
      (res.2.2.map stateId).Nodup := by
  intro fuel
  induction fuel with
  | zero => intro frontier explored res hn h; simp [aStarLoop] at h
  | succ fuel ih =>
    intro frontier explored res hn h
    simp only [aStarLoop] at h
    cases hp : popMin frontier with
    | none =>
      simp only [hp, Option.some_inj] at h
      rw [← h]
      exact hn
    | some pr =>
      obtain ⟨state, rest⟩ := pr
      simp only [hp] at h
      by_cases hd : explored.any (fun s => stateId s == stateId state) = true
      · rw [if_pos hd] at h
        exact ih rest explored res hn h
      · rw [if_neg hd] at h
        have hnotin : stateId state ∉ explored.map stateId := by
          intro hmem
          apply hd
          rw [List.any_eq_true]
          obtain ⟨s2, hs2, hid⟩ := List.mem_map.mp hmem
          exact ⟨s2, hs2, by simp [hid]⟩
        have hn2 : ((explored ++ [state]).map stateId).Nodup := by
          rw [List.map_append, List.nodup_append]
          refine ⟨hn, by simp, ?_⟩
          intro a ha hb
          simp only [List.map_cons, List.map_nil, List.mem_singleton] at hb
          rw [hb] at ha
          exact hnotin ha
        by_cases hg : is_goal state = true
        · rw [if_pos hg] at h
          simp only [Option.some_inj] at h
          rw [← h]
          exact hn2
        · rw [if_neg hg] at h
          exact ih _ _ res hn2 h

/-- The accepted nodes of any uninformed-search run have pairwise
distinct identities, provided they start so. -/
theorem dfsLoop_explored_nodup :
    ∀ (fuel : Nat) (frontier explored : List State)
      (res : List State × Int × List State),
      (explored.map stateId).Nodup →
      dfsLoop fuel frontier explored = some res →
      (res.2.2.map stateId).Nodup := by
  intro fuel
  induction fuel with
  | zero => intro frontier explored res hn h; simp [dfsLoop] at h
  | succ fuel ih =>
    intro frontier explored res hn h
    simp only [dfsLoop] at h
    cases hp : frontier.getLast? with
    | none =>
      simp only [hp, Option.some_inj] at h
      rw [← h]
      exact hn
    | some state =>
      simp only [hp] at h
      by_cases hd : explored.any (fun s => stateId s == stateId state) = true
      · rw [if_pos hd] at h
        exact ih frontier.dropLast explored res hn h
      · rw [if_neg hd] at h
        have hnotin : stateId state ∉ explored.map stateId := by
          intro hmem
          apply hd
          rw [List.any_eq_true]
          obtain ⟨s2, hs2, hid⟩ := List.mem_map.mp hmem
          exact ⟨s2, hs2, by simp [hid]⟩
        have hn2 : ((explored ++ [state]).map stateId).Nodup := by
          rw [List.map_append, List.nodup_append]
          refine ⟨hn, by simp, ?_⟩
          intro a ha hb
          simp only [List.map_cons, List.map_nil, List.mem_singleton] at hb
          rw [hb] at ha
          exact hnotin ha
        by_cases hg : is_goal state = true
        · rw [if_pos hg] at h
          simp only [Option.some_inj] at h
          rw [← h]
          exact hn2
        · rw [if_neg hg] at h
          exact ih _ _ res hn2 h

/-- A popped node whose identity is already explored is dropped: the run
continues on the shrunk frontier with the explored set unchanged, with no
goal test and no expansion. -/
theorem aStarLoop_discard_eq (fuel : Nat) (frontier explored : List State)
    (state : State) (rest : List State)
    (hp : popMin frontier = some (state, rest))
    (hd : explored.any (fun s => stateId s == stateId state) = true) :
    aStarLoop (fuel + 1) frontier explored = aStarLoop fuel rest explored := by
  simp [aStarLoop, hp, hd]

/-- An accepted non-goal node pushes all its successors, with no
filtering against the explored set. -/
theorem aStarLoop_expand_eq (fuel : Nat) (frontier explored : List State)
    (state : State) (rest : List State)
    (hp : popMin frontier = some (state, rest))
    (hd : explored.any (fun s => stateId s == stateId state) = false)
    (hg : is_goal state = false) :
    aStarLoop (fuel + 1) frontier explored
      = aStarLoop fuel (rest ++ get_successors state) (explored ++ [state]) := by
  simp [aStarLoop, hp, hd, hg]

/-- Same discard behaviour for the uninformed search. -/
theorem dfsLoop_discard_eq (fuel : Nat) (frontier explored : List State)
    (state : State)
    (hp : frontier.getLast? = some state)
    (hd : explored.any (fun s => stateId s == stateId state) = true) :
    dfsLoop (fuel + 1) frontier explored
      = dfsLoop fuel frontier.dropLast explored := by
  simp [dfsLoop, hp, hd]

/-- C6: in both search drivers, whenever a run returns, its accepted
(explored) nodes carry pairwise distinct identities; a popped node with
an already-explored identity is discarded without goal test or
expansion; and an accepted non-goal node pushes all its successors onto
the frontier, even those whose identity is already explored. -/
theorem no_duplicate_expansion :
    (∀ (fuel : Nat) (frontier explored : List State)
      (res : List State × Int × List State),
      (explored.map stateId).Nodup →
      aStarLoop fuel frontier explored = some res →
      (res.2.2.map stateId).Nodup) ∧
    (∀ (fuel : Nat) (frontier explored : List State)
      (res : List State × Int × List State),
      (explored.map stateId).Nodup →
      dfsLoop fuel frontier explored = some res →
      (res.2.2.map stateId).Nodup) ∧
    (∀ (fuel : Nat) (frontier explored : List State)
      (state : State) (rest : List State),
      popMin frontier = some (state, rest) →
      explored.any (fun s => stateId s == stateId state) = true →
      aStarLoop (fuel + 1) frontier explored = aStarLoop fuel rest explored) ∧
    (∀ (fuel : Nat) (frontier explored : List State) (state : State),
      frontier.getLast? = some state →
      explored.any (fun s => stateId s == stateId state) = true →
      dfsLoop (fuel + 1) frontier explored
        = dfsLoop fuel frontier.dropLast explored) ∧
    (∀ (fuel : Nat) (frontier explored : List State)
      (state : State) (rest : List State),
      popMin frontier = some (state, rest) →
      explored.any (fun s => stateId s == stateId state) = false →
      is_goal state = false →
      aStarLoop (fuel + 1) frontier explored
        = aStarLoop fuel (rest ++ get_successors state) (explored ++ [state])) :=
  ⟨aStarLoop_explored_nodup, dfsLoop_explored_nodup,
   fun fuel frontier explored state rest hp hd =>
     aStarLoop_discard_eq fuel frontier explored state rest hp hd,
   fun fuel frontier explored state hp hd =>
     dfsLoop_discard_eq fuel frontier explored state hp hd,
   fun fuel frontier explored state rest hp hd hg =>
     aStarLoop_expand_eq fuel frontier explored state rest hp hd hg⟩

/-- Unsolvable board: the exit vehicle at columns 0-1 of row 2 and two
vertical length-3 vehicles jamming all of column 5; no vehicle in column
5 can ever move, so the exit is permanently blocked. -/
def wUnsolv : Board :=
  mkBoard "unsolvable" 6 [⟨"h", 2, 0, 2⟩, ⟨"v", 5, 0, 3⟩, ⟨"v", 5, 3, 3⟩]

/-- Witness for C6: a concrete informed run on `wUnsolv` returns, and its
accepted nodes have pairwise distinct identities. -/
theorem no_duplicate_expansion_witness :
    ∃ res, aStarLoop 200 [initState wUnsolv zero_heuristic] [] = some res ∧
      (res.2.2.map stateId).Nodup := by
  have hs : (aStarLoop 200 [initState wUnsolv zero_heuristic] []).isSome = true := by
    decide
  obtain ⟨res, hres⟩ := Option.isSome_iff_exists.mp hs
  exact ⟨res, hres,
    no_duplicate_expansion.1 200 [initState wUnsolv zero_heuristic] [] res
      (by simp) hres⟩

/-! Relating the instrumented driver to the plain one. -/

/-- A reconstructed path always holds at least the node itself. -/
theorem get_path_length_pos (s : State) : 0 < (get_path s).length := by
  cases s with
  | mk b h f d p =>
    cases p with
    | none => simp [get_path]
    | some q => simp [get_path]

/-- The counting loop runs in lockstep with the plain loop: it runs out
of fuel exactly when the plain loop does, and on any return its path and
cost agree with the plain loop's, its third component is the final pop
counter at a goal and `-1` on exhaustion, and the counter only grows. -/
theorem aStarLoopC_rel :
    ∀ (fuel : Nat) (frontier explored : List State) (count : Nat),
      (aStarLoopC fuel frontier explored count = none ↔
        aStarLoop fuel frontier explored = none) ∧
      (∀ p c t k,
        aStarLoopC fuel frontier explored count = some ((p, c, t), k) →
        ∃ ex, aStarLoop fuel frontier explored = some (p, c, ex) ∧
          t = (if c = -1 then (-1 : Int) else (k : Int)) ∧ count ≤ k) := by
  intro fuel
  induction fuel with
  | zero =>
    intro frontier explored count
    constructor
    · simp [aStarLoopC, aStarLoop]
    · intro p c t k h
      simp [aStarLoopC] at h
  | succ fuel ih =>
    intro frontier explored count
    constructor
    · simp only [aStarLoopC, aStarLoop]
      cases hp : popMin frontier with
      | none => simp
      | some pr =>
        obtain ⟨state, rest⟩ := pr
        dsimp only
        by_cases hd : explored.any (fun s => stateId s == stateId state) = true
        · rw [if_pos hd, if_pos hd]
          exact (ih rest explored (count + 1)).1
        · rw [if_neg hd, if_neg hd]
          by_cases hg : is_goal state = true
          · rw [if_pos hg, if_pos hg]
            simp
          · rw [if_neg hg, if_neg hg]
            exact (ih _ _ _).1
    · intro p c t k h
      simp only [aStarLoopC] at h
      cases hp : popMin frontier with
      | none =>
        simp only [hp, Option.some_inj, Prod.mk.injEq] at h
        obtain ⟨⟨h1, h2, h3⟩, h4⟩ := h
        refine ⟨explored, ?_, ?_, by omega⟩
        · simp only [aStarLoop, hp]
          rw [← h1, ← h2]
        · rw [← h2, ← h3]
          simp
      | some pr =>
        obtain ⟨state, rest⟩ := pr
        simp only [hp] at h
        by_cases hd : explored.any (fun s => stateId s == stateId state) = true
        · rw [if_pos hd] at h
          obtain ⟨ex, h1, h2, h3⟩ := (ih rest explored (count + 1)).2 p c t k h
          refine ⟨ex, ?_, h2, by omega⟩
          simp only [aStarLoop, hp]
          rw [if_pos hd]
          exact h1
        · rw [if_neg hd] at h
          by_cases hg : is_goal state = true
          · rw [if_pos hg] at h
            simp only [Option.some_inj, Prod.mk.injEq] at h
            obtain ⟨⟨h1, h2, h3⟩, h4⟩ := h
            refine ⟨explored ++ [state], ?_, ?_, by omega⟩
            · simp only [aStarLoop, hp]
              rw [if_neg hd, if_pos hg, ← h1, ← h2]
            · have hpos := get_path_length_pos state
              have hc : ¬(c = -1) := by
                rw [← h2]
                intro hcc
                omega
              rw [if_neg hc, ← h3, ← h4]
          · rw [if_neg hg] at h
            obtain ⟨ex, h1, h2, h3⟩ :=
              (ih (rest ++ get_successors state) (explored ++ [state])
                (count + 1)).2 p c t k h
            refine ⟨ex, ?_, h2, by omega⟩
            simp only [aStarLoop, hp]
            rw [if_neg hd, if_neg hg]
            exact h1

/-- More fuel never changes a run of the counting loop that returned. -/
theorem aStarLoopC_mono :
    ∀ (f1 f2 : Nat) (frontier explored : List State) (count : Nat)
      (r : (List State × Int × Int) × Nat),
      f1 ≤ f2 → aStarLoopC f1 frontier explored count = some r →
      aStarLoopC f2 frontier explored count = some r := by
  intro f1
  induction f1 with
  | zero =>
    intro f2 fr ex c r h12 h
    simp [aStarLoopC] at h
  | succ f1 ih =>
    intro f2 fr ex c r h12 h
    obtain ⟨f3, rfl⟩ : ∃ f3, f2 = f3 + 1 := ⟨f2 - 1, by omega⟩
    simp only [aStarLoopC] at h ⊢
    cases hp : popMin fr with
    | none =>
      simp only [hp] at h ⊢
      exact h
    | some pr =>
      obtain ⟨state, rest⟩ := pr
      simp only [hp] at h ⊢
      by_cases hd : ex.any (fun s => stateId s == stateId state) = true
      · rw [if_pos hd] at h ⊢
        exact ih f3 _ _ _ r (by omega) h
      · rw [if_neg hd] at h ⊢
        by_cases hg : is_goal state = true
        · rw [if_pos hg] at h ⊢
          exact h
        · rw [if_neg hg] at h ⊢
          exact ih f3 _ _ _ r (by omega) h

/-- Board holding only the exit vehicle at columns 0-1 of row 2. -/
def wFree : Board := mkBoard "free" 6 [⟨"h", 2, 0, 2⟩]

/-- C9 amended: the instrumented driver is defined exactly when `a_star`
is; whenever it returns, its path and cost equal `a_star`'s on the same
inputs, and its third component equals the number of nodes popped from
the frontier (discarded pops included) when the run ends in a goal, but
is `-1` — not the pop count — when the run ends in frontier
exhaustion. -/
theorem a_star_node_expanded_amended :
    ∀ (b : Board) (hfn : Board → Nat),
      ((a_star_node_expanded b hfn).isSome = (a_star b hfn).isSome) ∧
      (∀ p c t, a_star_node_expanded b hfn = some (p, c, t) →
        a_star b hfn = some (p, c) ∧
        ∃ k, a_star_pops b hfn = some k ∧
          t = (if c = -1 then (-1 : Int) else (k : Int))) := by
  intro b hfn
  have hrel := aStarLoopC_rel (fuelBound b) [initState b hfn] [] 0
  constructor
  · simp only [a_star_node_expanded, a_star, Option.isSome_map']
    cases hC : aStarLoopC (fuelBound b) [initState b hfn] [] 0 with
    | none =>
      have hA : aStarLoop (fuelBound b) [initState b hfn] [] = none :=
        hrel.1.mp hC
      rw [hA]
      rfl
    | some r =>
      obtain ⟨⟨p, c, t⟩, k⟩ := r
      obtain ⟨ex, hA, _, _⟩ := hrel.2 p c t k hC
      rw [hA]
      rfl
  · intro p c t h
    simp only [a_star_node_expanded, Option.map_eq_some'] at h
    obtain ⟨r, hr, hr1⟩ := h
    obtain ⟨⟨p2, c2, t2⟩, k⟩ := r
    simp only [Prod.mk.injEq] at hr1
    obtain ⟨hp2, hc2, ht2⟩ := hr1
    rw [hp2, hc2, ht2] at hr
    obtain ⟨ex, h1, h2, h3⟩ := hrel.2 p c t k hr
    refine ⟨by simp [a_star, h1], k, by simp [a_star_pops, hr], h2⟩

/-- Counterexample to C9 at the unsolvable board `wUnsolv`: the
instrumented run pops 13 nodes and ends in frontier exhaustion, yet
returns `-1` as its third component rather than the pop count. -/
theorem a_star_node_expanded_cex :
    (a_star_node_expanded wUnsolv zero_heuristic).map
        (fun r => (r.1.length, r.2.1, r.2.2)) = some (0, -1, -1) ∧
    a_star_pops wUnsolv zero_heuristic = some 13 ∧
    (-1 : Int) ≠ (13 : Int) := by
  have hobs : (aStarLoopC 200 [initState wUnsolv zero_heuristic] [] 0).map
      (fun r => (r.1.1.length, r.1.2.1, r.1.2.2, r.2)) = some (0, -1, -1, 13) := by
    decide
  cases hrun : aStarLoopC 200 [initState wUnsolv zero_heuristic] [] 0 with
  | none =>
    rw [hrun] at hobs
    simp at hobs
  | some r =>
    rw [hrun, Option.map_some'] at hobs
    have hbig := aStarLoopC_mono 200 (fuelBound wUnsolv) _ _ _ r (by decide) hrun
    obtain ⟨⟨p, c, t⟩, k⟩ := r
    simp only [Option.some_inj, Prod.mk.injEq] at hobs
    obtain ⟨h1, h2, h3, h4⟩ := hobs
    refine ⟨?_, ?_, by decide⟩
    · simp [a_star_node_expanded, hbig, h1, h2, h3]
    · simp [a_star_pops, hbig, h4]

/-- Witness for the amended C9 at the one-vehicle solvable board: the
goal is found, and the third component equals the pop count 2. -/
theorem a_star_node_expanded_amended_witness :
    ∃ p c t k, a_star_node_expanded wFree zero_heuristic = some (p, c, t) ∧
      a_star wFree zero_heuristic = some (p, c) ∧
      a_star_pops wFree zero_heuristic = some k ∧
      t = (if c = -1 then (-1 : Int) else (k : Int)) := by
  have hobs : (aStarLoopC 200 [initState wFree zero_heuristic] [] 0).isSome
      = true := by decide
  obtain ⟨r, hrun⟩ := Option.isSome_iff_exists.mp hobs
  have hbig := aStarLoopC_mono 200 (fuelBound wFree) _ _ _ r (by decide) hrun
  have hne : a_star_node_expanded wFree zero_heuristic = some r.1 := by
    simp [a_star_node_expanded, hbig]
  obtain ⟨⟨p, c, t⟩, k⟩ := r
  obtain ⟨hA, k2, hk1, hk2⟩ :=
    (a_star_node_expanded_amended wFree zero_heuristic).2 p c t hne
  exact ⟨p, c, t, k2, hne, hA, hk1, hk2⟩

/-! Determinism of the uninformed search order. -/

/-- In a list sorted by descending identity, the last element has the
least identity. -/
theorem pairwise_getLast_min :
    ∀ (l : List State),
      l.Pairwise (fun a b => Nat.ble (stateId b) (stateId a) = true) →
      ∀ (hne : l ≠ []), ∀ n ∈ l, stateId (l.getLast hne) ≤ stateId n := by
  intro l
  induction l with
  | nil => intro _ hne; exact absurd rfl hne
  | cons a tl ih =>
    intro hp hne n hn
    by_cases htl : tl = []
    · subst htl
      simp only [List.mem_singleton] at hn
      subst hn
      simp [List.getLast]
    · rw [List.getLast_cons htl]
      obtain ⟨hhead, htlp⟩ := List.pairwise_cons.mp hp
      rcases List.mem_cons.mp hn with hna | hnm
      · have hb := hhead (tl.getLast htl) (List.getLast_mem htl)
        rw [hna]
        simpa [Nat.ble_eq] using hb
      · exact ih htlp htl n hnm

/-- The descending sort keeps exactly the successors. -/
theorem mem_sortByIdDescending (l : List State) (x : State) :
    x ∈ sortByIdDescending l ↔ x ∈ l :=
  (List.mergeSort_perm l _).mem_iff

/-- The descending sort is sorted: later elements have no larger
identity. -/
theorem sortByIdDescending_pairwise (l : List State) :
    (sortByIdDescending l).Pairwise
      (fun a b => Nat.ble (stateId b) (stateId a) = true) := by
  apply List.sorted_mergeSort
  · intro a b c hab hbc
    simp only [Nat.ble_eq] at hab hbc ⊢
    omega
  · intro a b
    rcases Nat.le_total (stateId b) (stateId a) with h | h
    · simp [Nat.ble_eq, h]
    · simp [Nat.ble_eq, h]

/-- C8: `dfs` seeds a last-in-first-out stack with the single
zero-heuristic initial node; an accepted non-goal node appends its
successors sorted by descending identity, so the next node popped (the
stack's last entry) is the sibling with the least identity; and the
driver is a function of the initial board, so equal boards give equal
results. -/
theorem dfs_deterministic_order :
    (∀ b : Board, dfs b
      = (dfsLoop (fuelBound b) [State.mk b zero_heuristic 0 0 none] []).map
          (fun r => (r.1, r.2.1))) ∧
    (∀ (fuel : Nat) (frontier explored : List State) (state : State),
      frontier.getLast? = some state →
      explored.any (fun s => stateId s == stateId state) = false →
      is_goal state = false →
      dfsLoop (fuel + 1) frontier explored
        = dfsLoop fuel
          (frontier.dropLast ++ sortByIdDescending (get_successors state))
          (explored ++ [state])) ∧
    (∀ (rest ns : List State), ns ≠ [] →
      ∃ m, (rest ++ sortByIdDescending ns).getLast? = some m ∧
        m ∈ ns ∧ ∀ n ∈ ns, stateId m ≤ stateId n) ∧
    (∀ b1 b2 : Board, b1 = b2 → dfs b1 = dfs b2) := by
  refine ⟨fun b => rfl, ?_, ?_, fun b1 b2 h => by rw [h]⟩
  · intro fuel frontier explored state hp hd hg
    simp [dfsLoop, hp, hd, hg]
  · intro rest ns hne
    have hsne : sortByIdDescending ns ≠ [] := by
      intro h
      apply hne
      have hl := @List.length_mergeSort State
        (fun a b => Nat.ble (stateId b) (stateId a)) ns
      rw [← List.length_eq_zero]
      rw [← hl]
      unfold sortByIdDescending at h
      rw [h]
      rfl
    have hlast := List.getLast?_eq_getLast (sortByIdDescending ns) hsne
    refine ⟨(sortByIdDescending ns).getLast hsne, ?_, ?_, ?_⟩
    · rw [List.getLast?_append, hlast]
      rfl
    · exact (mem_sortByIdDescending ns _).mp (List.getLast_mem hsne)
    · intro n hn
      exact pairwise_getLast_min (sortByIdDescending ns)
        (sortByIdDescending_pairwise ns) hsne n
        ((mem_sortByIdDescending ns n).mpr hn)

/-- Initial node of `dfs` on the unsolvable witness board. -/
def stW : State := State.mk wUnsolv zero_heuristic 0 0 none

/-- Witness for C8: among the three successors of `stW`, the one with
least identity ends the pushed frontier and is popped next. -/
theorem dfs_deterministic_order_witness :
    ∃ m, (([] : List State) ++ sortByIdDescending (get_successors stW)).getLast?
        = some m ∧
      m ∈ get_successors stW ∧
      ∀ n ∈ get_successors stW, stateId m ≤ stateId n :=
  dfs_deterministic_order.2.2.1 [] (get_successors stW) (by
    intro h
    have hlen : (get_successors stW).length = 3 := by decide
    rw [h] at hlen
    simp at hlen)

/-! Termination infrastructure: grid shapes and identity bounds. -/

/-- A grid of `n` rows, each of `n` cells. -/
def gridShape (n : Nat) (g : Grid) : Prop :=
  g.length = n ∧ ∀ row ∈ g, row.length = n

/-- Writing one cell never changes the shape. -/
theorem gridShape_setCell (n : Nat) (g : Grid) (r c : Nat) (ch : Char)
    (h : gridShape n g) : gridShape n (setCell g r c ch) := by
  obtain ⟨h1, h2⟩ := h
  by_cases hr : r < g.length
  · constructor
    · rw [setCell, List.length_set]
      exact h1
    · intro row hrow
      rcases List.mem_or_eq_of_mem_set hrow with hmem | heq
      · exact h2 row hmem
      · rw [heq, List.length_set, List.getD_eq_getElem g [] hr]
        exact h2 _ (List.getElem_mem hr)
  · rw [setCell, List.set_eq_of_length_le (by omega)]
    exact ⟨h1, h2⟩

/-- Folding shape-preserving writes preserves the shape. -/
theorem gridShape_foldl {α : Type} (n : Nat) (step : Grid → α → Grid)
    (hstep : ∀ a x, gridShape n a → gridShape n (step a x)) :
    ∀ (l : List α) (g : Grid), gridShape n g → gridShape n (l.foldl step g) := by
  intro l
  induction l with
  | nil => intro g hg; exact hg
  | cons x tl ih => intro g hg; exact ih (step g x) (hstep g x hg)

/-- Placing one vehicle never changes the shape. -/
theorem gridShape_placeCar (n : Nat) (g : Grid) (c : Car)
    (h : gridShape n g) : gridShape n (placeCar g c) := by
  unfold placeCar
  by_cases ho : (c.orientation == "h") = true
  · rw [if_pos ho]
    apply gridShape_setCell
    apply gridShape_foldl n _ (fun a x ha => gridShape_setCell n a _ _ _ ha)
    exact gridShape_setCell n g _ _ _ h
  · rw [if_neg ho]
    apply gridShape_setCell
    apply gridShape_foldl n _ (fun a x ha => gridShape_setCell n a _ _ _ ha)
    exact gridShape_setCell n g _ _ _ h

/-- A constructed grid is square of the board's size. -/
theorem gridShape_constructGrid (n : Nat) (cars : List Car) :
    gridShape n (constructGrid n cars) := by
  unfold constructGrid
  apply gridShape_foldl n placeCar (fun a x ha => gridShape_placeCar n a x ha)
  constructor
  · exact List.length_replicate n _
  · intro row hrow
    rw [List.eq_of_mem_replicate hrow]
    exact List.length_replicate n _

/-- Every glyph code is below the base. -/
theorem glyphCode_lt (c : Char) : glyphCode c < 8 := by
  unfold glyphCode
  split <;> omega

/-- Accumulating one row multiplies the bound by the base per cell. -/
theorem rowId_lt : ∀ (row : List Char) (acc : Nat),
    rowId acc row < (acc + 1) * 8 ^ row.length := by
  intro row
  induction row with
  | nil =>
    intro acc
    simp [rowId]
  | cons c tl ih =>
    intro acc
    have h1 : rowId acc (c :: tl) = rowId (acc * 8 + glyphCode c) tl := rfl
    rw [h1]
    have h2 := ih (acc * 8 + glyphCode c)
    have h3 : (acc * 8 + glyphCode c + 1) ≤ (acc + 1) * 8 := by
      have := glyphCode_lt c
      omega
    calc rowId (acc * 8 + glyphCode c) tl
        < (acc * 8 + glyphCode c + 1) * 8 ^ tl.length := h2
      _ ≤ ((acc + 1) * 8) * 8 ^ tl.length :=
          Nat.mul_le_mul_right _ h3
      _ = (acc + 1) * 8 ^ (c :: tl).length := by
          rw [List.length_cons, pow_succ]
          ring

/-- Accumulating all rows keeps the identity below the full bound. -/
theorem foldl_rowId_lt (n : Nat) : ∀ (rows : List (List Char)) (acc : Nat),
    (∀ r ∈ rows, r.length = n) →
    rows.foldl rowId acc < (acc + 1) * 8 ^ (n * rows.length) := by
  intro rows
  induction rows with
  | nil =>
    intro acc h
    simp
  | cons r tl ih =>
    intro acc h
    have hr : r.length = n := h r (List.mem_cons_self _ _)
    have h1 : (r :: tl).foldl rowId acc = tl.foldl rowId (rowId acc r) := rfl
    rw [h1]
    have h2 := ih (rowId acc r) (fun x hx => h x (List.mem_cons_of_mem _ hx))
    have h3 : rowId acc r + 1 ≤ (acc + 1) * 8 ^ n := by
      have := rowId_lt r acc
      rw [hr] at this
      omega
    calc tl.foldl rowId (rowId acc r)
        < (rowId acc r + 1) * 8 ^ (n * tl.length) := h2
      _ ≤ ((acc + 1) * 8 ^ n) * 8 ^ (n * tl.length) :=
          Nat.mul_le_mul_right _ h3
      _ = (acc + 1) * 8 ^ (n * (r :: tl).length) := by
          rw [List.length_cons, Nat.mul_assoc, ← pow_add]
          congr 2
          ring

/-- The identity of a square grid of size `n` is below `8 ^ (n * n)`. -/
theorem gridId_lt (n : Nat) (g : Grid) (h : gridShape n g) :
    gridId g < 8 ^ (n * n) := by
  obtain ⟨h1, h2⟩ := h
  have := foldl_rowId_lt n g 0 h2
  rw [h1] at this
  simpa [gridId] using this

/-- Distinct naturals below a bound are at most that many. -/
theorem length_le_of_nodup_lt (ids : List Nat) (B : Nat)
    (hn : ids.Nodup) (hb : ∀ x ∈ ids, x < B) : ids.length ≤ B := by
  have hcard : ids.toFinset.card = ids.length :=
    List.toFinset_card_of_nodup hn
  have hsub : ids.toFinset ⊆ Finset.range B := by
    intro x hx
    exact Finset.mem_range.mpr (hb x (List.mem_toFinset.mp hx))
  have := Finset.card_le_card hsub
  rw [hcard, Finset.card_range] at this
  exact this

/-! Reachability and well-formedness of boards. -/

/-- Well-formed board of size `n` with `L` vehicles: the grid is the one
the constructor builds, and every vehicle lies inside the grid with
positive length. -/
def WFBoard (n L : Nat) (b : Board) : Prop :=
  b.size = n ∧ b.cars.length = L ∧ b.grid = constructGrid n b.cars ∧
  ∀ c ∈ b.cars, c.var_coord + c.length ≤ n ∧ 1 ≤ c.length

/-- Boards of the successors of a state, a function of its board alone. -/
def succBoards (b : Board) : List Board :=
  (get_successors (State.mk b (fun _ => 0) 0 0 none)).map State.board

/-- One board reaches another when a sequence of legal slides connects
them. -/
inductive Reachable : Board → Board → Prop
  | refl (b : Board) : Reachable b b
  | step {a b c : Board} : Reachable a b → c ∈ succBoards b → Reachable a c

/-- A set of boards containing the start and closed under successor
boards contains everything reachable. -/
theorem reachable_closed (initb : Board) (S : List Board)
    (hinit : initb ∈ S)
    (hstep : ∀ b ∈ S, ∀ c ∈ succBoards b, c ∈ S) :
    ∀ b, Reachable initb b → b ∈ S := by
  intro b h
  induction h with
  | refl => exact hinit
  | step h1 h2 ih => exact hstep _ ih _ h2

/-- The boards of a state's successors depend only on the state's own
board. -/
theorem map_board_get_successors (s : State) :
    (get_successors s).map State.board = succBoards s.board := by
  obtain ⟨b, hfn, f, d, p⟩ := s
  unfold succBoards
  simp only [get_successors, State.board]
  rw [List.map_flatMap, List.map_flatMap]
  congr 1
  funext i
  by_cases ho : ((b.cars.getD i default).orientation == "h") = true
  · rw [if_pos ho, if_pos ho]
    simp only [addHorizontalNeighbours, State.board, List.map_append,
      List.map_map]
    rfl
  · rw [if_neg ho, if_neg ho]
    simp only [addVerticalNeighbours, State.board, List.map_append,
      List.map_map]
    rfl

/-- A successor built from an in-bounds move is well formed. -/
theorem addNeighbour_wf (n L : Nat) (s : State) (j y : Nat)
    (hwf : WFBoard n L s.board) (hj : j < s.board.cars.length)
    (hy : y + (s.board.cars.getD j default).length ≤ n) :
    WFBoard n L (addNeighbour s (s.board.cars.set j
      { s.board.cars.getD j default with var_coord := y })).board := by
  obtain ⟨hsz, hlen, hgr, hcars⟩ := hwf
  have hcarmem : s.board.cars.getD j default ∈ s.board.cars := by
    rw [List.getD_eq_getElem _ _ hj]
    exact List.getElem_mem hj
  refine ⟨hsz, ?_, ?_, ?_⟩
  · show (s.board.cars.set j _).length = L
    rw [List.length_set]
    exact hlen
  · show constructGrid s.board.size
        (s.board.cars.set j { s.board.cars.getD j default with var_coord := y })
      = constructGrid n
        (s.board.cars.set j { s.board.cars.getD j default with var_coord := y })
    rw [hsz]
  · intro c hc
    rcases List.mem_or_eq_of_mem_set hc with hmem | heq
    · exact hcars c hmem
    · rw [heq]
      refine ⟨hy, ?_⟩
      exact (hcars _ hcarmem).2

/-- Successors of a well-formed state are well formed. -/
theorem get_successors_wf (n L : Nat) (s : State) (hwf : WFBoard n L s.board) :
    ∀ t ∈ get_successors s, WFBoard n L t.board := by
  intro t ht
  obtain ⟨j, hj, htj⟩ := (mem_get_successors s t).mp ht
  have hcarmem : s.board.cars.getD j default ∈ s.board.cars := by
    rw [List.getD_eq_getElem _ _ hj]
    exact List.getElem_mem hj
  obtain ⟨hcb, hcl⟩ := hwf.2.2.2 _ hcarmem
  have hsn : s.board.size = n := hwf.1
  by_cases ho : ((s.board.cars.getD j default).orientation == "h") = true
  · rw [if_pos ho] at htj
    obtain ⟨x, rfl, hx⟩ := (mem_addHorizontalNeighbours s j _ rfl t).mp htj
    apply addNeighbour_wf n L s j x hwf hj
    rcases hx with ⟨h1, _⟩ | ⟨e, h1, h2, rfl, _⟩
    · omega
    · omega
  · rw [if_neg ho] at htj
    obtain ⟨y, rfl, hy⟩ := (mem_addVerticalNeighbours s j _ rfl t).mp htj
    apply addNeighbour_wf n L s j y hwf hj
    rcases hy with ⟨h1, _⟩ | ⟨e, h1, h2, rfl, _⟩
    · omega
    · omega

/-- A flat map of short lists is short. -/
theorem length_flatMap_le {α β : Type} (l : List α) (f : α → List β) (m : Nat)
    (h : ∀ x ∈ l, (f x).length ≤ m) : (l.flatMap f).length ≤ l.length * m := by
  induction l with
  | nil => simp
  | cons a tl ih =>
    rw [List.flatMap_cons, List.length_append, List.length_cons, Nat.succ_mul]
    have h1 := h a (List.mem_cons_self _ _)
    have h2 := ih (fun x hx => h x (List.mem_cons_of_mem _ hx))
    omega

/-- A well-formed state has at most `L * n` successors. -/
theorem get_successors_length_le (n L : Nat) (s : State)
    (hwf : WFBoard n L s.board) : (get_successors s).length ≤ L * n := by
  have hr : (List.range s.board.cars.length).length = L := by
    rw [List.length_range, hwf.2.1]
  have hb := length_flatMap_le (List.range s.board.cars.length)
    (fun i => if (s.board.cars.getD i default).orientation == "h" then
      addHorizontalNeighbours s i else addVerticalNeighbours s i) n ?_
  · calc (get_successors s).length
        ≤ (List.range s.board.cars.length).length * n := hb
      _ = L * n := by rw [hr]
  · intro i hi
    rw [List.mem_range] at hi
    have hcarmem : s.board.cars.getD i default ∈ s.board.cars := by
      rw [List.getD_eq_getElem _ _ hi]
      exact List.getElem_mem hi
    obtain ⟨hcb, hcl⟩ := hwf.2.2.2 _ hcarmem
    have hsn : s.board.size = n := hwf.1
    dsimp only
    by_cases ho : ((s.board.cars.getD i default).orientation == "h") = true
    · rw [if_pos ho]
      simp only [addHorizontalNeighbours, List.length_append, List.length_map]
      have l1 := length_negWalk
        (fun x => cellB s.board (s.board.cars.getD i default).fix_coord x == '.')
        (s.board.cars.getD i default).var_coord
      have l2 := length_posWalk
        (fun x => cellB s.board (s.board.cars.getD i default).fix_coord x == '.')
        (s.board.size - ((s.board.cars.getD i default).var_coord
          + (s.board.cars.getD i default).length))
        ((s.board.cars.getD i default).var_coord
          + (s.board.cars.getD i default).length)
      omega
    · rw [if_neg ho]
      simp only [addVerticalNeighbours, List.length_append, List.length_map]
      have l1 := length_negWalk
        (fun y => cellB s.board y (s.board.cars.getD i default).fix_coord == '.')
        (s.board.cars.getD i default).var_coord
      have l2 := length_posWalk
        (fun y => cellB s.board y (s.board.cars.getD i default).fix_coord == '.')
        (s.board.size - ((s.board.cars.getD i default).var_coord
          + (s.board.cars.getD i default).length))
        ((s.board.cars.getD i default).var_coord
          + (s.board.cars.getD i default).length)
      omega

/-- With goal-free reachability and enough fuel, the informed loop
always exhausts its frontier and reports no solution. -/
theorem aStarLoop_unsolv (n L : Nat) (initb : Board)
    (hgoalfree : ∀ x, Reachable initb x → isGoalBoard x = false) :
    ∀ (fuel : Nat) (frontier explored : List State),
      (∀ s ∈ frontier, WFBoard n L s.board ∧ Reachable initb s.board) →
      (∀ s ∈ explored, stateId s < 8 ^ (n * n)) →
      (explored.map stateId).Nodup →
      (8 ^ (n * n) - explored.length) * (L * n + 1) + frontier.length < fuel →
      ∃ ex, aStarLoop fuel frontier explored = some ([], -1, ex) := by
  intro fuel
  induction fuel with
  | zero =>
    intro frontier explored hfr hex hnd hfuel
    exact absurd hfuel (Nat.not_lt_zero _)
  | succ fuel ih =>
    intro frontier explored hfr hex hnd hfuel
    cases hp : popMin frontier with
    | none =>
      refine ⟨explored, ?_⟩
      simp [aStarLoop, hp]
    | some pr =>
      obtain ⟨state, rest⟩ := pr
      have hst := hfr state (popMin_mem frontier state rest hp)
      have hrest : ∀ s ∈ rest, WFBoard n L s.board ∧ Reachable initb s.board :=
        fun s hs => hfr s (popMin_sub frontier state rest hp s hs)
      have hlen := popMin_length frontier state rest hp
      by_cases hd : explored.any (fun s => stateId s == stateId state) = true
      · rw [aStarLoop_discard_eq fuel frontier explored state rest hp hd]
        apply ih rest explored hrest hex hnd
        generalize hP : (8 ^ (n * n) - explored.length) * (L * n + 1) = P
          at hfuel ⊢
        omega
      · have hgoal : is_goal state = false := by
          have := hgoalfree state.board hst.2
          simpa [is_goal] using this
        rw [aStarLoop_expand_eq fuel frontier explored state rest hp
          (Bool.eq_false_iff.mpr hd) hgoal]
        have hidb : stateId state < 8 ^ (n * n) := by
          have hsh := gridShape_constructGrid n state.board.cars
          unfold stateId
          rw [hst.1.2.2.1]
          exact gridId_lt n _ hsh
        have hex2 : ∀ s ∈ explored ++ [state], stateId s < 8 ^ (n * n) := by
          intro s hs
          rcases List.mem_append.mp hs with h | h
          · exact hex s h
          · simp only [List.mem_singleton] at h
            rw [h]
            exact hidb
        have hnotin : stateId state ∉ explored.map stateId := by
          intro hmem
          apply hd
          rw [List.any_eq_true]
          obtain ⟨s2, hs2, hid⟩ := List.mem_map.mp hmem
          exact ⟨s2, hs2, by simp [hid]⟩
        have hnd2 : ((explored ++ [state]).map stateId).Nodup := by
          rw [List.map_append, List.nodup_append]
          refine ⟨hnd, by simp, ?_⟩
          intro a ha hb
          simp only [List.map_cons, List.map_nil, List.mem_singleton] at hb
          rw [hb] at ha
          exact hnotin ha
        have hsuccwf := get_successors_wf n L state hst.1
        have hsuccreach : ∀ t ∈ get_successors state,
            Reachable initb t.board := by
          intro t htc
          have hmem : t.board ∈ succBoards state.board := by
            rw [← map_board_get_successors state]
            exact List.mem_map_of_mem State.board htc
          exact Reachable.step hst.2 hmem
        have hfr2 : ∀ s ∈ rest ++ get_successors state,
            WFBoard n L s.board ∧ Reachable initb s.board := by
          intro s hs
          rcases List.mem_append.mp hs with h | h
          · exact hrest s h
          · exact ⟨hsuccwf s h, hsuccreach s h⟩
        apply ih _ _ hfr2 hex2 hnd2
        have hcount := get_successors_length_le n L state hst.1
        have he1 : explored.length < 8 ^ (n * n) := by
          have hle := length_le_of_nodup_lt ((explored ++ [state]).map stateId)
            (8 ^ (n * n)) hnd2 ?_
          · rw [List.length_map, List.length_append] at hle
            simp only [List.length_singleton] at hle
            omega
          · intro x hx
            obtain ⟨s2, hs2, hid⟩ := List.mem_map.mp hx
            rw [← hid]
            exact hex2 s2 hs2
        have hmul : (8 ^ (n * n) - (explored.length + 1)) * (L * n + 1)
            + (L * n + 1) = (8 ^ (n * n) - explored.length) * (L * n + 1) := by
          have h9 : (8 ^ (n * n) - (explored.length + 1)) + 1
              = 8 ^ (n * n) - explored.length := by omega
          calc (8 ^ (n * n) - (explored.length + 1)) * (L * n + 1) + (L * n + 1)
              = ((8 ^ (n * n) - (explored.length + 1)) + 1) * (L * n + 1) := by
                ring
            _ = (8 ^ (n * n) - explored.length) * (L * n + 1) := by rw [h9]
        simp only [List.length_append, List.length_singleton]
        generalize hq1 : (8 ^ (n * n) - (explored.length + 1)) * (L * n + 1) = P1
          at hmul ⊢
        generalize hq2 : (8 ^ (n * n) - explored.length) * (L * n + 1) = P2
          at hmul hfuel
        omega

/-- The last stack entry is on the stack. -/
theorem mem_of_getLast?_eq_some (l : List State) (s : State)
    (h : l.getLast? = some s) : s ∈ l := by
  by_cases hl : l = []
  · rw [hl] at h
    simp at h
  · rw [List.getLast?_eq_getLast l hl] at h
    simp only [Option.some_inj] at h
    rw [← h]
    exact List.getLast_mem hl

/-- An accepted non-goal node of `dfs` pushes its sorted successors. -/
theorem dfsLoop_expand_eq (fuel : Nat) (frontier explored : List State)
    (state : State)
    (hp : frontier.getLast? = some state)
    (hd : explored.any (fun s => stateId s == stateId state) = false)
    (hg : is_goal state = false) :
    dfsLoop (fuel + 1) frontier explored
      = dfsLoop fuel
        (frontier.dropLast ++ sortByIdDescending (get_successors state))
        (explored ++ [state]) := by
  simp [dfsLoop, hp, hd, hg]

/-- The sort keeps the number of successors. -/
theorem sortByIdDescending_length (l : List State) :
    (sortByIdDescending l).length = l.length :=
  List.length_mergeSort l

/-- With goal-free reachability and enough fuel, the uninformed loop
always exhausts its stack and reports no solution. -/
theorem dfsLoop_unsolv (n L : Nat) (initb : Board)
    (hgoalfree : ∀ x, Reachable initb x → isGoalBoard x = false) :
    ∀ (fuel : Nat) (frontier explored : List State),
      (∀ s ∈ frontier, WFBoard n L s.board ∧ Reachable initb s.board) →
      (∀ s ∈ explored, stateId s < 8 ^ (n * n)) →
      (explored.map stateId).Nodup →
      (8 ^ (n * n) - explored.length) * (L * n + 1) + frontier.length < fuel →
      ∃ ex, dfsLoop fuel frontier explored = some ([], -1, ex) := by
  intro fuel
  induction fuel with
  | zero =>
    intro frontier explored hfr hex hnd hfuel
    exact absurd hfuel (Nat.not_lt_zero _)
  | succ fuel ih =>
    intro frontier explored hfr hex hnd hfuel
    cases hp : frontier.getLast? with
    | none =>
      refine ⟨explored, ?_⟩
      simp [dfsLoop, hp]
    | some state =>
      have hst := hfr state (mem_of_getLast?_eq_some frontier state hp)
      have hrest : ∀ s ∈ frontier.dropLast,
          WFBoard n L s.board ∧ Reachable initb s.board :=
        fun s hs => hfr s (List.dropLast_subset frontier hs)
      have hlen : frontier.dropLast.length = frontier.length - 1 :=
        List.length_dropLast frontier
      have hfne : frontier ≠ [] := by
        intro h
        rw [h] at hp
        simp at hp
      have hflen : 1 ≤ frontier.length := List.length_pos.mpr hfne
      by_cases hd : explored.any (fun s => stateId s == stateId state) = true
      · rw [dfsLoop_discard_eq fuel frontier explored state hp hd]
        apply ih frontier.dropLast explored hrest hex hnd
        generalize hP : (8 ^ (n * n) - explored.length) * (L * n + 1) = P
          at hfuel ⊢
        omega
      · have hgoal : is_goal state = false := by
          have := hgoalfree state.board hst.2
          simpa [is_goal] using this
        rw [dfsLoop_expand_eq fuel frontier explored state hp
          (Bool.eq_false_iff.mpr hd) hgoal]
        have hidb : stateId state < 8 ^ (n * n) := by
          have hsh := gridShape_constructGrid n state.board.cars
          unfold stateId
          rw [hst.1.2.2.1]
          exact gridId_lt n _ hsh
        have hex2 : ∀ s ∈ explored ++ [state], stateId s < 8 ^ (n * n) := by
          intro s hs
          rcases List.mem_append.mp hs with h | h
          · exact hex s h
          · simp only [List.mem_singleton] at h
            rw [h]
            exact hidb
        have hnotin : stateId state ∉ explored.map stateId := by
          intro hmem
          apply hd
          rw [List.any_eq_true]
          obtain ⟨s2, hs2, hid⟩ := List.mem_map.mp hmem
          exact ⟨s2, hs2, by simp [hid]⟩
        have hnd2 : ((explored ++ [state]).map stateId).Nodup := by
          rw [List.map_append, List.nodup_append]
          refine ⟨hnd, by simp, ?_⟩
          intro a ha hb
          simp only [List.map_cons, List.map_nil, List.mem_singleton] at hb
          rw [hb] at ha
          exact hnotin ha
        have hsuccwf := get_successors_wf n L state hst.1
        have hsuccreach : ∀ t ∈ get_successors state,
            Reachable initb t.board := by
          intro t htc
          have hmem : t.board ∈ succBoards state.board := by
            rw [← map_board_get_successors state]
            exact List.mem_map_of_mem State.board htc
          exact Reachable.step hst.2 hmem
        have hfr2 : ∀ s ∈ frontier.dropLast
            ++ sortByIdDescending (get_successors state),
            WFBoard n L s.board ∧ Reachable initb s.board := by
          intro s hs
          rcases List.mem_append.mp hs with h | h
          · exact hrest s h
          · have hm := (mem_sortByIdDescending _ s).mp h
            exact ⟨hsuccwf s hm, hsuccreach s hm⟩
        apply ih _ _ hfr2 hex2 hnd2
        have hcount := get_successors_length_le n L state hst.1
        have he1 : explored.length < 8 ^ (n * n) := by
          have hle := length_le_of_nodup_lt ((explored ++ [state]).map stateId)
            (8 ^ (n * n)) hnd2 ?_
          · rw [List.length_map, List.length_append] at hle
            simp only [List.length_singleton] at hle
            omega
          · intro x hx
            obtain ⟨s2, hs2, hid⟩ := List.mem_map.mp hx
            rw [← hid]
            exact hex2 s2 hs2
        have hmul : (8 ^ (n * n) - (explored.length + 1)) * (L * n + 1)
            + (L * n + 1) = (8 ^ (n * n) - explored.length) * (L * n + 1) := by
          have h9 : (8 ^ (n * n) - (explored.length + 1)) + 1
              = 8 ^ (n * n) - explored.length := by omega
          calc (8 ^ (n * n) - (explored.length + 1)) * (L * n + 1) + (L * n + 1)
              = ((8 ^ (n * n) - (explored.length + 1)) + 1) * (L * n + 1) := by
                ring
            _ = (8 ^ (n * n) - explored.length) * (L * n + 1) := by rw [h9]
        simp only [List.length_append, List.length_singleton,
          sortByIdDescending_length]
        generalize hq1 : (8 ^ (n * n) - (explored.length + 1)) * (L * n + 1) = P1
          at hmul ⊢
        generalize hq2 : (8 ^ (n * n) - explored.length) * (L * n + 1) = P2
          at hmul hfuel
        omega

/-- C7: on a well-formed initial board from which no reachable board
passes the goal test, both search drivers terminate by exhausting the
frontier and return the empty path with cost `-1` (no exception). -/
theorem search_unsolvable_returns_empty :
    ∀ (b : Board) (hfn : Board → Nat),
      b.grid = constructGrid b.size b.cars →
      (∀ c ∈ b.cars, c.var_coord + c.length ≤ b.size ∧ 1 ≤ c.length) →
      (∀ x, Reachable b x → isGoalBoard x = false) →
      a_star b hfn = some ([], -1) ∧ dfs b = some ([], -1) := by
  intro b hfn hgrid hcars hgf
  have hfuel : (8 ^ (b.size * b.size) - ([] : List State).length)
      * (b.cars.length * b.size + 1) + 1 < fuelBound b := by
    unfold fuelBound
    have hc : b.cars.length * b.size = b.size * b.cars.length :=
      Nat.mul_comm _ _
    simp only [List.length_nil, Nat.sub_zero, hc]
    generalize (8 ^ (b.size * b.size)) * (b.size * b.cars.length + 1) = P
    omega
  constructor
  · obtain ⟨ex1, h1⟩ := aStarLoop_unsolv b.size b.cars.length b hgf
      (fuelBound b) [initState b hfn] []
      (by
        intro s hs
        simp only [List.mem_singleton] at hs
        rw [hs]
        exact ⟨⟨rfl, rfl, hgrid, hcars⟩, Reachable.refl b⟩)
      (by simp)
      (by simp)
      (by simpa using hfuel)
    simp [a_star, h1]
  · obtain ⟨ex2, h2⟩ := dfsLoop_unsolv b.size b.cars.length b hgf
      (fuelBound b) [State.mk b zero_heuristic 0 0 none] []
      (by
        intro s hs
        simp only [List.mem_singleton] at hs
        rw [hs]
        exact ⟨⟨rfl, rfl, hgrid, hcars⟩, Reachable.refl b⟩)
      (by simp)
      (by simp)
      (by simpa using hfuel)
    simp [dfs, h2]

/-- The four boards reachable from `wUnsolv`: the exit vehicle anywhere
on columns 0-3, the two column-5 vehicles never moving. -/
def wSet : List Board :=
  [mkBoard "unsolvable" 6 [⟨"h", 2, 0, 2⟩, ⟨"v", 5, 0, 3⟩, ⟨"v", 5, 3, 3⟩],
   mkBoard "unsolvable" 6 [⟨"h", 2, 1, 2⟩, ⟨"v", 5, 0, 3⟩, ⟨"v", 5, 3, 3⟩],
   mkBoard "unsolvable" 6 [⟨"h", 2, 2, 2⟩, ⟨"v", 5, 0, 3⟩, ⟨"v", 5, 3, 3⟩],
   mkBoard "unsolvable" 6 [⟨"h", 2, 3, 2⟩, ⟨"v", 5, 0, 3⟩, ⟨"v", 5, 3, 3⟩]]

/-- Witness for C7 at `wUnsolv`: its reachable boards all lie in `wSet`
and none is a goal, so both drivers report no solution. -/
theorem search_unsolvable_returns_empty_witness :
    a_star wUnsolv zero_heuristic = some ([], -1) ∧
    dfs wUnsolv = some ([], -1) :=
  search_unsolvable_returns_empty wUnsolv zero_heuristic rfl
    (by decide)
    (fun x hx => by
      have hsub := reachable_closed wUnsolv wSet (by decide) (by decide) x hx
      have hall : ∀ y ∈ wSet, isGoalBoard y = false := by decide
      exact hall x hsub)
